import Mathlib

/-!
Verification of the openclaw voice-gateway core against its specification.

Each section shallowly embeds one component of the TypeScript source:
pure functions become Lean functions, stateful classes become explicit
state-passing functions, and event-driven code becomes a step function
over traces of external events.  Machine numbers are modelled as `Int`
or `ℚ` (all quantities involved stay well within IEEE-double exactness
except where noted in the doc comments).
-/

namespace VoiceGateway

/-! ## Constants (src/constants.ts) -/

/-- `ECHO_COOLDOWN_MS` (src/constants.ts): echo suppression window after the
bot stops speaking. -/
def ECHO_COOLDOWN_MS : Int := 300

/-- `GEMINI_SESSION_ROTATION_BUFFER_MS` (src/constants.ts). -/
def GEMINI_SESSION_ROTATION_BUFFER_MS : Int := 60000

/-- `TTS_MAX_CHARS` (src/constants.ts). -/
def TTS_MAX_CHARS : Nat := 4000

/-- `BYTES_PER_SAMPLE` (src/constants.ts): 16-bit PCM. -/
def BYTES_PER_SAMPLE : Nat := 2

/-! ## Engine factory (src/engine/engine-factory.ts, src/config.ts)

`resolveMode` picks the engine family from the resolved configuration.
Only the configuration fields that `resolveMode`/`hasS2sCredentials`
consult are carried in the slice.  A JavaScript string is truthy
(`!!s`) exactly when it is nonempty. -/

inductive S2sProviderName
  | openaiRealtime
  | geminiLive
  deriving DecidableEq, Repr

inductive VoiceMode
  | auto
  | pipeline
  | speechToSpeech
  deriving DecidableEq, Repr

inductive EngineKind
  | pipeline
  | speechToSpeech
  deriving DecidableEq, Repr

structure S2sConfigSlice where
  provider : Option S2sProviderName
  openaiRealtimeApiKey : String
  geminiLiveApiKey : String
  deriving DecidableEq, Repr

structure ConfigSlice where
  mode : VoiceMode
  s2s : S2sConfigSlice
  deriving DecidableEq, Repr

/-- `hasS2sCredentials` (src/config.ts lines 237-243). -/
def hasS2sCredentials (config : ConfigSlice) : Bool :=
  match config.s2s.provider with
  | none => false
  | some .openaiRealtime => config.s2s.openaiRealtimeApiKey != ""
  | some .geminiLive => config.s2s.geminiLiveApiKey != ""

/-- `resolveMode` (src/engine/engine-factory.ts lines 25-47).  The second
component records whether the `console.warn` downgrade branch ran. -/
def resolveMode (config : ConfigSlice) : EngineKind × Bool :=
  match config.mode with
  | .speechToSpeech =>
      if hasS2sCredentials config then (.speechToSpeech, false)
      else (.pipeline, true)
  | .pipeline => (.pipeline, false)
  | .auto =>
      if hasS2sCredentials config then (.speechToSpeech, false)
      else (.pipeline, false)

/-! ## Echo suppressor (src/audio/echo-suppressor.ts)

State-passing embedding of the `EchoSuppressor` class.  `Date.now()`
is threaded explicitly as `now : Int`.  The RMS of a PCM frame is an
irrational real in general (`Math.sqrt`), so frames enter this model
through their RMS value as an exact rational; the suppression decision
logic only ever compares these values numerically.  The float literal
`1.4` is modelled by the exact rational `7/5`. -/

structure EchoSuppressor where
  isBotSpeaking : Bool
  botStoppedSpeakingAt : Int
  outboundRmsHistory : List ℚ
  deriving Repr

namespace EchoSuppressor

/-- Ring capacity (`historyLength = 50`). -/
def historyLength : Nat := 50

/-- Fresh suppressor state (field initialisers of the class). -/
def init : EchoSuppressor :=
  { isBotSpeaking := false, botStoppedSpeakingAt := 0, outboundRmsHistory := [] }

/-- `registerOutbound` (lines 26-32): push the chunk's RMS, dropping the
oldest sample once the ring exceeds `historyLength`. -/
def registerOutbound (s : EchoSuppressor) (rms : ℚ) : EchoSuppressor :=
  let history := s.outboundRmsHistory ++ [rms]
  { s with outboundRmsHistory :=
      if historyLength < history.length then history.tail else history }

/-- `setSpeaking` (lines 35-40). -/
def setSpeaking (s : EchoSuppressor) (speaking : Bool) (now : Int) : EchoSuppressor :=
  if !speaking && s.isBotSpeaking then
    { s with isBotSpeaking := speaking, botStoppedSpeakingAt := now }
  else
    { s with isBotSpeaking := speaking }

/-- `isInCooldown` (lines 80-83). -/
def isInCooldown (s : EchoSuppressor) (now : Int) : Bool :=
  if s.isBotSpeaking then false
  else now - s.botStoppedSpeakingAt < ECHO_COOLDOWN_MS

/-- `getAverageOutboundRms` (lines 85-89). -/
def getAverageOutboundRms (s : EchoSuppressor) : ℚ :=
  if s.outboundRmsHistory.length = 0 then 0
  else s.outboundRmsHistory.sum / s.outboundRmsHistory.length

/-- `shouldSuppress` (lines 46-69), deciding on the frame's RMS `inRms`. -/
def shouldSuppress (s : EchoSuppressor) (now : Int) (inRms : ℚ) : Bool :=
  if !s.isBotSpeaking && !s.isInCooldown now then
    false
  else if s.isInCooldown now && !s.isBotSpeaking then
    inRms < 600
  else if s.isBotSpeaking then
    let avgOutboundRms := s.getAverageOutboundRms
    if 0 < avgOutboundRms && inRms < avgOutboundRms * (7/5) then true else false
  else
    false

end EchoSuppressor

/-- C8: mode resolution.  `auto` picks speech-to-speech exactly when an S2S
provider is configured with a nonempty API key; `speech-to-speech` without
credentials downgrades to pipeline with a warning; `pipeline` always
resolves to pipeline. -/
theorem resolveMode_spec (config : ConfigSlice) :
    (config.mode = .auto →
      ((resolveMode config).1 = .speechToSpeech ↔
        ∃ p, config.s2s.provider = some p ∧
          (p = .openaiRealtime → config.s2s.openaiRealtimeApiKey ≠ "") ∧
          (p = .geminiLive → config.s2s.geminiLiveApiKey ≠ ""))) ∧
    (config.mode = .speechToSpeech → hasS2sCredentials config = false →
      resolveMode config = (.pipeline, true)) ∧
    (config.mode = .pipeline → (resolveMode config).1 = .pipeline) := by
  have hcred : hasS2sCredentials config = true ↔
      ∃ p, config.s2s.provider = some p ∧
        (p = .openaiRealtime → config.s2s.openaiRealtimeApiKey ≠ "") ∧
        (p = .geminiLive → config.s2s.geminiLiveApiKey ≠ "") := by
    unfold hasS2sCredentials
    rcases hp : config.s2s.provider with _ | p
    · simp
    · cases p <;> simp [bne_iff_ne]
  refine ⟨?_, ?_, ?_⟩
  · intro hmode
    rw [← hcred]
    unfold resolveMode
    rw [hmode]
    by_cases h : hasS2sCredentials config = true <;> simp [h]
  · intro hmode hcredf
    unfold resolveMode
    rw [hmode, hcredf]
    simp
  · intro hmode
    unfold resolveMode
    rw [hmode]

/-- Witness for `resolveMode_spec` at a concrete configuration. -/
theorem resolveMode_spec_witness :
    let c : ConfigSlice :=
      { mode := .auto,
        s2s := { provider := some .geminiLive,
                 openaiRealtimeApiKey := "",
                 geminiLiveApiKey := "k" } }
    (resolveMode c).1 = .speechToSpeech := by
  intro c
  have h := (resolveMode_spec c).1 rfl
  exact h.mpr ⟨.geminiLive, rfl, fun h' => absurd h' (by decide), fun _ => by decide⟩

/-- C5: the echo-suppression decision.  While the bot-speaking flag is up and
the ring mean `R` is positive, a frame is suppressed iff its RMS is below
`1.4 · R`; while the flag is down but within `ECHO_COOLDOWN_MS` of the last
drop, iff its RMS is below 600; once the cooldown has expired, never. -/
theorem shouldSuppress_spec (s : EchoSuppressor) (now : Int) (inRms : ℚ) :
    (s.isBotSpeaking = true → 0 < s.getAverageOutboundRms →
      (s.shouldSuppress now inRms = true ↔
        inRms < s.getAverageOutboundRms * (7/5))) ∧
    (s.isBotSpeaking = false → now - s.botStoppedSpeakingAt < ECHO_COOLDOWN_MS →
      (s.shouldSuppress now inRms = true ↔ inRms < 600)) ∧
    (s.isBotSpeaking = false → ECHO_COOLDOWN_MS ≤ now - s.botStoppedSpeakingAt →
      s.shouldSuppress now inRms = false) := by
  refine ⟨?_, ?_, ?_⟩
  · intro hs havg
    have hcool : s.isInCooldown now = false := by
      unfold EchoSuppressor.isInCooldown
      rw [hs]
      simp
    unfold EchoSuppressor.shouldSuppress
    rw [hs, hcool]
    simp [havg]
  · intro hs hlt
    have hcool : s.isInCooldown now = true := by
      unfold EchoSuppressor.isInCooldown
      rw [hs]
      simpa using hlt
    unfold EchoSuppressor.shouldSuppress
    rw [hs, hcool]
    simp
  · intro hs hge
    have hcool : s.isInCooldown now = false := by
      unfold EchoSuppressor.isInCooldown
      rw [hs]
      simpa using not_lt.mpr hge
    unfold EchoSuppressor.shouldSuppress
    rw [hs, hcool]
    simp

/-- Witness for `shouldSuppress_spec`: a speaking-state suppressor with ring
mean 1000 suppresses a frame of RMS 900 (900 < 1400). -/
theorem shouldSuppress_spec_witness :
    let s : EchoSuppressor :=
      { isBotSpeaking := true, botStoppedSpeakingAt := 0,
        outboundRmsHistory := [1000] }
    s.shouldSuppress 100 900 = true := by
  intro s
  have h := ((shouldSuppress_spec s 100 900).1 rfl (by norm_num [EchoSuppressor.getAverageOutboundRms]))
  rw [h]
  norm_num [EchoSuppressor.getAverageOutboundRms]

/-! ## Conversation context (src/session/conversation-context.ts) -/

inductive Role
  | user
  | assistant
  deriving DecidableEq, Repr

structure ConversationTurn where
  role : Role
  userId : Option String := none
  username : Option String := none
  content : String
  timestamp : Int
  deriving DecidableEq, Repr

/-- `ConversationContext.addTurn` + `prune` (lines 16-19, 50-54): push the
turn, then shift from the front while the window exceeds `maxTurns`. -/
def addTurn (maxTurns : Nat) (turns : List ConversationTurn) (t : ConversationTurn) :
    List ConversationTurn :=
  let pushed := turns ++ [t]
  pushed.drop (pushed.length - maxTurns)

/-! ## Speech-to-speech engine (src/engine/speech-to-speech-engine.ts)

`attachSessionEvents` demultiplexes provider-session events into engine
emissions plus conversation/tool side effects.  The embedding maps each
provider event to the state update and the list of engine events the
handler emits. -/

inductive S2sEvent
  | audio (chunk : List Int) (sampleRate : Nat)
  | transcriptIn (text : String)
  | transcriptOut (text : String)
  | toolCall (callId name : String)
  | interrupted
  | turnEnd
  | errorEv (msg : String)
  deriving DecidableEq, Repr

/-- The `VoiceEngine` event contract (src engine-interface): note that the
contract declares a `turn-end` event alongside the others. -/
inductive EngineEvent
  | audioOut (chunk : List Int) (sampleRate : Nat)
  | transcriptIn (userId text : String)
  | transcriptOut (text : String)
  | errorEv (msg : String)
  | turnEnd
  deriving DecidableEq, Repr

structure S2sEngineState where
  maxTurns : Nat
  conversation : List ConversationTurn
  /-- Log of `session.sendToolResult(callId, result)` calls. -/
  toolResults : List (String × String)
  deriving Repr

/-- One provider-session event through the handlers installed by
`attachSessionEvents` (lines 86-131).  `now` models `Date.now()` and
`toolOutcome` the (serialised) result of `coreBridge.executeToolCall`. -/
def handleSessionEvent (s : S2sEngineState) (now : Int) (toolOutcome : String)
    (ev : S2sEvent) : S2sEngineState × List EngineEvent :=
  match ev with
  | .audio chunk rate => (s, [.audioOut chunk rate])
  | .transcriptIn text =>
      let turn : ConversationTurn := { role := .user, content := text, timestamp := now }
      ({ s with conversation := addTurn s.maxTurns s.conversation turn },
       [.transcriptIn "unknown" text])
  | .transcriptOut text =>
      let turn : ConversationTurn := { role := .assistant, content := text, timestamp := now }
      ({ s with conversation := addTurn s.maxTurns s.conversation turn },
       [.transcriptOut text])
  | .toolCall callId _name =>
      ({ s with toolResults := s.toolResults ++ [(callId, toolOutcome)] }, [])
  | .interrupted => (s, [.transcriptOut ""])
  | .turnEnd => (s, [])
  | .errorEv msg => (s, [.errorEv msg])

/-- Run a whole sequence of provider-session events, collecting every engine
emission in order.  Each element of `evs` carries the event together with the
`Date.now()` value and tool outcome observed by its handler. -/
def runSessionEvents (s : S2sEngineState) :
    List (S2sEvent × Int × String) → S2sEngineState × List EngineEvent
  | [] => (s, [])
  | (ev, now, outcome) :: rest =>
      let (s', out) := handleSessionEvent s now outcome ev
      let (s'', out') := runSessionEvents s' rest
      (s'', out ++ out')

/-- C9: the speech-to-speech engine never emits `turn-end`, for any sequence
of provider-session events — the session's `turn-end` handler is empty and
nothing else re-emits it, even though the `VoiceEngine` contract declares
the event. -/
theorem s2sEngine_never_emits_turnEnd (s : S2sEngineState)
    (evs : List (S2sEvent × Int × String)) :
    EngineEvent.turnEnd ∉ (runSessionEvents s evs).2 := by
  induction evs generalizing s with
  | nil => simp [runSessionEvents]
  | cons head rest ih =>
      obtain ⟨ev, now, outcome⟩ := head
      simp only [runSessionEvents, List.mem_append]
      rintro (hmem | hmem)
      · cases ev <;> simp [handleSessionEvent] at hmem
      · exact ih _ hmem

/-! ## Pipeline engine `endOfSpeech` (src engine pipeline)

The per-user audio buffers are a `Map<string, Buffer[]>`, embedded as an
association list keyed by user id.  `endOfSpeech` either discards the
event (processing lock held) or removes the user's buffers and starts
processing their concatenation; the synchronous prefix of
`processUtterance` sets `isProcessing := true` and `interrupted := false`
before the first suspension point. -/

structure PipelineEngineState where
  userAudioBuffers : List (String × List (List Int))
  isProcessing : Bool
  interrupted : Bool
  deriving Repr

namespace PipelineEngineState

/-- `Map.get` on the buffer map. -/
def getBuffers (s : PipelineEngineState) (userId : String) : Option (List (List Int)) :=
  (s.userAudioBuffers.find? (fun p => p.1 = userId)).map Prod.snd

/-- `Map.delete` on the buffer map. -/
def deleteBuffers (s : PipelineEngineState) (userId : String) : PipelineEngineState :=
  { s with userAudioBuffers := s.userAudioBuffers.filter (fun p => ¬ p.1 = userId) }

/-- `feedAudio` (pipeline engine): create the user's entry on first contact,
then push the frame. -/
def feedAudio (s : PipelineEngineState) (userId : String) (pcm : List Int) :
    PipelineEngineState :=
  match s.getBuffers userId with
  | none => { s with userAudioBuffers := s.userAudioBuffers ++ [(userId, [pcm])] }
  | some bufs =>
      { s with userAudioBuffers :=
          s.userAudioBuffers.map (fun p => if p.1 = userId then (p.1, bufs ++ [pcm]) else p) }

/-- `endOfSpeech` (pipeline engine): discarded while `isProcessing`;
otherwise the user's buffers are removed and, when nonempty, their
concatenation becomes the utterance handed to `processUtterance`, whose
synchronous prefix takes the processing lock. -/
def endOfSpeech (s : PipelineEngineState) (userId : String) :
    PipelineEngineState × Option (String × List Int) :=
  if s.isProcessing then (s, none)
  else
    let buffers := s.getBuffers userId
    let s1 := s.deleteBuffers userId
    match buffers with
    | none => (s1, none)
    | some [] => (s1, none)
    | some bufs =>
        ({ s1 with isProcessing := true, interrupted := false },
         some (userId, bufs.flatten))

/-- The `finally` clause of `processUtterance` releasing the lock. -/
def finishProcessing (s : PipelineEngineState) : PipelineEngineState :=
  { s with isProcessing := false }

/-- Feed a list of frames in order. -/
def feedAll (s : PipelineEngineState) (userId : String) :
    List (List Int) → PipelineEngineState
  | [] => s
  | pcm :: rest => (s.feedAudio userId pcm).feedAll userId rest

/-- Looking up a key appended to an association list missing it. -/
theorem find?_append_single {α : Type} (l : List (String × α)) (u : String) (x : α)
    (h : l.find? (fun p => p.1 = u) = none) :
    (l ++ [(u, x)]).find? (fun p => p.1 = u) = some (u, x) := by
  induction l with
  | nil => simp
  | cons p rest ih =>
      by_cases hp : p.1 = u
      · rw [List.find?_cons_of_pos _ (by simp [hp])] at h
        exact absurd h (by simp)
      · rw [List.find?_cons_of_neg _ (by simp [hp])] at h
        rw [List.cons_append, List.find?_cons_of_neg _ (by simp [hp])]
        exact ih h

/-- Updating the value at a present key of an association list. -/
theorem find?_map_update {α : Type} (l : List (String × α)) (u : String) (v : α)
    (h : (l.find? (fun p => p.1 = u)).isSome) :
    (l.map (fun p => if p.1 = u then (p.1, v) else p)).find? (fun p => p.1 = u) =
      some (u, v) := by
  induction l with
  | nil => simp at h
  | cons p rest ih =>
      by_cases hp : p.1 = u
      · rw [List.map_cons, if_pos hp, hp,
          List.find?_cons_of_pos _ (by simp)]
      · rw [List.find?_cons_of_neg _ (by simp [hp])] at h
        rw [List.map_cons, if_neg hp, List.find?_cons_of_neg _ (by simp [hp])]
        exact ih h

/-- `feedAudio` makes the fed user's buffer the previous buffer with the
frame appended. -/
theorem getBuffers_feedAudio (s : PipelineEngineState) (userId : String)
    (pcm : List Int) :
    (s.feedAudio userId pcm).getBuffers userId =
      some ((s.getBuffers userId).getD [] ++ [pcm]) := by
  unfold PipelineEngineState.feedAudio
  rcases h : s.getBuffers userId with _ | bufs
  · have hf : s.userAudioBuffers.find? (fun p => p.1 = userId) = none := by
      unfold PipelineEngineState.getBuffers at h
      exact Option.map_eq_none'.mp h
    unfold PipelineEngineState.getBuffers
    simp only
    rw [find?_append_single _ _ _ hf]
    simp
  · have hf : (s.userAudioBuffers.find? (fun p => p.1 = userId)).isSome := by
      unfold PipelineEngineState.getBuffers at h
      rcases hg : s.userAudioBuffers.find? (fun p => p.1 = userId) with _ | q
      · rw [hg] at h; exact absurd h (by simp)
      · rw [hg]; rfl
    unfold PipelineEngineState.getBuffers
    simp only
    rw [find?_map_update _ _ _ hf]
    simp

/-- `feedAll` appends every fed frame to the user's buffer, in order. -/
theorem getBuffers_feedAll (s : PipelineEngineState) (userId : String)
    (cs : List (List Int)) (hcs : cs ≠ []) :
    (s.feedAll userId cs).getBuffers userId =
      some ((s.getBuffers userId).getD [] ++ cs) := by
  induction cs generalizing s with
  | nil => exact absurd rfl hcs
  | cons c rest ih =>
      rcases Decidable.em (rest = []) with hrest | hrest
      · subst hrest
        simpa [PipelineEngineState.feedAll] using getBuffers_feedAudio s userId c
      · have := ih (s.feedAudio userId c) hrest
        simp only [PipelineEngineState.feedAll, this, getBuffers_feedAudio,
          Option.getD_some]
        simp

/-- C10: an `endOfSpeech` arriving while `isProcessing` is a no-op — the
state (in particular the user's accumulated audio buffer) is untouched and
no utterance is started — and frames fed during the ongoing processing stay
buffered and form part of the user's next processed utterance. -/
theorem endOfSpeech_whileProcessing (s : PipelineEngineState) (userId : String)
    (cs : List (List Int)) (h : s.isProcessing = true)
    (hne : (s.getBuffers userId).getD [] ++ cs ≠ []) :
    s.endOfSpeech userId = (s, none) ∧
    ((((s.endOfSpeech userId).1.feedAll userId cs).finishProcessing).endOfSpeech
        userId).2 =
      some (userId, ((s.getBuffers userId).getD [] ++ cs).flatten) := by
  have hbusy : s.endOfSpeech userId = (s, none) := by
    unfold PipelineEngineState.endOfSpeech
    rw [h]
    simp
  refine ⟨hbusy, ?_⟩
  rw [hbusy]
  set s2 := s.feedAll userId cs with hs2
  have hbuf : s2.getBuffers userId = some ((s.getBuffers userId).getD [] ++ cs) := by
    rcases Decidable.em (cs = []) with hcs | hcs
    · subst hcs
      simp only [hs2, PipelineEngineState.feedAll, List.append_nil]
      rcases hg : s.getBuffers userId with _ | bufs
      · simp [hg] at hne
      · simp [hg]
    · exact getBuffers_feedAll s userId cs hcs
  have hfin1 : s2.finishProcessing.isProcessing = false := rfl
  have hfin2 : s2.finishProcessing.getBuffers userId = s2.getBuffers userId := rfl
  unfold PipelineEngineState.endOfSpeech
  rw [hfin1, hfin2, hbuf]
  rcases hb : (s.getBuffers userId).getD [] ++ cs with _ | ⟨b, bs⟩
  · exact absurd hb hne
  · simp

/-- Witness for `endOfSpeech_whileProcessing`: with the lock held and one
buffered frame, a further frame fed during processing ends up in the next
utterance. -/
theorem endOfSpeech_whileProcessing_witness :
    let s : PipelineEngineState :=
      { userAudioBuffers := [("u", [[1, 2]])], isProcessing := true,
        interrupted := false }
    s.endOfSpeech "u" = (s, none) ∧
    ((((s.endOfSpeech "u").1.feedAll "u" [[3]]).finishProcessing).endOfSpeech "u").2 =
      some ("u", [1, 2, 3]) := by
  intro s
  have h := endOfSpeech_whileProcessing s "u" [[3]] rfl (by decide)
  exact ⟨h.1, by rw [h.2]; rfl⟩

end PipelineEngineState

/-! ## Linear-interpolation resampler (src/types.ts part: audio-pipeline, `resample`)

PCM buffers are modelled at sample granularity: a buffer of 16-bit PCM is
the list of its `Int` samples (`readInt16LE`/`writeInt16LE` pair each sample
with exactly `BYTES_PER_SAMPLE = 2` bytes, so byte length is twice the
sample count throughout).  JavaScript `Math.round` is `⌊x + 1/2⌋`, which is
Mathlib's `round`; `Math.floor` on the (nonnegative) source position is
`Int.toNat ∘ Int.floor`.  The arithmetic (`ratio`, `srcPos`, `frac`) is
carried out in exact rationals. -/

/-- `resample` (lines 372-392): linear-interpolation resampling of 16-bit
mono PCM from `fromRate` to `toRate`; identity when the rates coincide. -/
def resample (pcm : List Int) (fromRate toRate : Nat) : List Int :=
  if fromRate = toRate then pcm
  else
    let inSamples := pcm.length
    let outSamples := (round ((inSamples * toRate : ℚ) / fromRate)).toNat
    (List.range outSamples).map fun (i : Nat) =>
      let srcPos : ℚ := (i * fromRate : ℚ) / toRate
      let srcIdx : Nat := (⌊srcPos⌋).toNat
      let frac : ℚ := srcPos - (srcIdx : ℚ)
      let ta : ℚ := if srcIdx < inSamples then (pcm.getD srcIdx 0 : ℚ) else 0
      let tb : ℚ := if srcIdx + 1 < inSamples then (pcm.getD (srcIdx + 1) 0 : ℚ) else ta
      round (ta + frac * (tb - ta))


/-- The source position of every emitted sample lies strictly inside the
input: `i < round(n·b/a)` forces `⌊i·a/b⌋ < n`. -/
theorem srcIdx_lt_inSamples (n a b i : Nat) (ha : 0 < a) (hb : 0 < b)
    (hi : i < (round ((n * b : ℚ) / a)).toNat) :
    ⌊((i * a : ℚ) / b)⌋ < (n : ℤ) := by
  have hA : (0 : ℚ) < a := by exact_mod_cast ha
  have hB : (0 : ℚ) < b := by exact_mod_cast hb
  have h2 : (i : ℤ) < round ((n * b : ℚ) / a) := Int.lt_toNat.mp hi
  have h3 : ((i : ℚ) + 1) ≤ ((round ((n * b : ℚ) / a) : ℤ) : ℚ) := by
    exact_mod_cast h2
  have h4 : ((round ((n * b : ℚ) / a) : ℤ) : ℚ) ≤ (n * b : ℚ) / a + 1 / 2 := by
    rw [round_eq]
    exact Int.floor_le _
  have h5 : (i : ℚ) ≤ (n * b : ℚ) / a - 1 / 2 := by linarith
  have h6 : (i : ℚ) * a ≤ ((n * b : ℚ) / a - 1 / 2) * a :=
    mul_le_mul_of_nonneg_right h5 (le_of_lt hA)
  have h7 : ((n * b : ℚ) / a - 1 / 2) * a = n * b - a / 2 := by
    field_simp
    ring
  rw [Int.floor_lt]
  rw [div_lt_iff₀ hB]
  push_cast
  rw [h7] at h6
  linarith

/-- Indexing the output of `resample` in the genuine (rate-changing) branch. -/
theorem resample_getD (x : List Int) (a b : Nat) (hab : a ≠ b) (i : Nat)
    (hi : i < (round ((x.length * b : ℚ) / a)).toNat) :
    (resample x a b).getD i 0 =
      (let srcPos : ℚ := (i * a : ℚ) / b
       let srcIdx : Nat := (⌊srcPos⌋).toNat
       let frac : ℚ := srcPos - (srcIdx : ℚ)
       let ta : ℚ := if srcIdx < x.length then (x.getD srcIdx 0 : ℚ) else 0
       let tb : ℚ := if srcIdx + 1 < x.length then (x.getD (srcIdx + 1) 0 : ℚ) else ta
       round (ta + frac * (tb - ta))) := by
  rw [resample, if_neg hab]
  simp only
  rw [List.getD_eq_getElem?_getD, List.getElem?_map, List.getElem?_range hi]
  rfl

/-- Length of the output of `resample` for any positive rates. -/
theorem resample_length (x : List Int) (a b : Nat) (ha : 0 < a) :
    (resample x a b).length = (round ((x.length * b : ℚ) / a)).toNat := by
  by_cases hab : a = b
  · subst hab
    rw [resample, if_pos rfl]
    have hq : ((x.length * a : ℚ) / a) = (x.length : ℚ) := by
      field_simp
    rw [hq, round_natCast, Int.toNat_natCast]
  · rw [resample, if_neg hab]
    simp

/-- C7: the resampler.  `resample x r r` is the identity; for positive rates
the output has `round(n·toRate/fromRate)` samples (i.e. byte length
`round(byteLen/2 · toRate/fromRate) · 2`); and every output sample is the
rounded linear interpolation of the two adjacent input samples at source
position `i·fromRate/toRate`, the out-of-range second tap repeating the
last valid input sample (index `min (idx+1) (n-1)`). -/
theorem resample_spec (x : List Int) (a b : Nat) (ha : 0 < a) (hb : 0 < b) :
    resample x a a = x ∧
    (resample x a b).length = (round ((x.length * b : ℚ) / a)).toNat ∧
    ∀ i, i < (resample x a b).length →
      ∃ idx : Nat, idx < x.length ∧ (idx : ℤ) = ⌊((i * a : ℚ) / b)⌋ ∧
        (resample x a b).getD i 0 =
          round ((x.getD idx 0 : ℚ) +
            (((i * a : ℚ) / b) - idx) *
              ((x.getD (min (idx + 1) (x.length - 1)) 0 : ℚ) - (x.getD idx 0 : ℚ))) := by
  have hident : resample x a a = x := by simp [resample]
  refine ⟨hident, resample_length x a b ha, ?_⟩
  intro i hi
  have hi' : i < (round ((x.length * b : ℚ) / a)).toNat :=
    resample_length x a b ha ▸ hi
  have hidx := srcIdx_lt_inSamples x.length a b i ha hb hi'
  have hnn : (0 : ℤ) ≤ ⌊((i * a : ℚ) / b)⌋ := by
    apply Int.floor_nonneg.mpr
    positivity
  refine ⟨(⌊((i * a : ℚ) / b)⌋).toNat, by omega, Int.toNat_of_nonneg hnn, ?_⟩
  set idx : Nat := (⌊((i * a : ℚ) / b)⌋).toNat with hidxdef
  have hlt : idx < x.length := by omega
  by_cases hab : a = b
  · subst hab
    have hq : ((i * a : ℚ) / a) = (i : ℚ) := by
      field_simp
    have hidxi : idx = i := by
      have : ⌊((i * a : ℚ) / a)⌋ = (i : ℤ) := by rw [hq]; exact Int.floor_natCast i
      omega
    rw [hident, hidxi, hq]
    have hii : i < x.length := by omega
    simp only [Int.floor_natCast, Int.toNat_natCast, sub_self, zero_mul, add_zero]
    rw [List.getD_eq_getElem x 0 hii]
    rw [round_intCast]
  · rw [resample_getD x a b hab i hi']
    simp only
    have hfold : ((⌊((i * a : ℚ) / b)⌋).toNat : Nat) = idx := rfl
    rw [hfold, if_pos hlt]
    by_cases htb : idx + 1 < x.length
    · rw [if_pos htb, min_eq_left (by omega)]
    · rw [if_neg htb]
      have hmin : min (idx + 1) (x.length - 1) = idx := by omega
      rw [hmin]

/-- Witness for `resample_spec`: upsampling a two-sample buffer from 8 kHz
to 16 kHz doubles the sample count, and the identity case returns the
buffer unchanged. -/
theorem resample_spec_witness :
    resample [100, 200] 8000 8000 = [100, 200] ∧
    (resample [100, 200] 8000 16000).length = 4 := by
  have h := resample_spec [100, 200] 8000 16000 (by norm_num) (by norm_num)
  refine ⟨h.1, ?_⟩
  rw [h.2.1]
  norm_num [round_eq]
  rfl

/-! ## Playback queue (src/audio/playback-queue.ts)

The `PlaybackQueue` is an event-driven class; its observable behaviour is
a state machine driven by external stimuli: `enqueue` calls, per-stream
`audio`/`end`/`error` events, the sender's `idle` event, and `clear`
calls.  Each enqueued stream is identified by the entry created for it
(`id`, assigned in enqueue order); stream events address that id.  The
state records, besides the class fields (`queue`, `currentEntry`,
`draining`), the externally visible effect logs: chunks fed to the sender
(`feedChunk` = `registerOutbound` + `sender.playBuffer`), emitted queue
events, `stream.cancel()` calls, `sender.stop()` calls, the echo
suppressor's bot-speaking flag, and — for stating ordering — the ids in
promotion (became-current) and completion order. -/

structure QueueEntry where
  id : Nat
  audioChunks : List Nat
  sampleRate : Nat
  ready : Bool
  playPointer : Nat
  error : Bool
  deriving DecidableEq, Repr

inductive QEvent
  | playing
  | finished
  | cleared
  | errorEv
  deriving DecidableEq, Repr

structure QState where
  nextId : Nat
  queue : List QueueEntry
  current : Option QueueEntry
  draining : Bool
  /-- Chunks handed to `feedChunk`: (entry id, chunk, sample rate). -/
  fed : List (Nat × Nat × Nat)
  events : List QEvent
  /-- Ids whose stream received `cancel()`. -/
  cancelled : List Nat
  senderStops : Nat
  speaking : Bool
  promoted : List Nat
  completed : List Nat
  deriving DecidableEq, Repr

namespace QState

/-- Initial state of a fresh `PlaybackQueue`. -/
def qInit : QState :=
  { nextId := 0, queue := [], current := none, draining := false, fed := [],
    events := [], cancelled := [], senderStops := 0, speaking := false,
    promoted := [], completed := [] }

/-- The recursive body of `processNext` (lines 110-143).  The TypeScript
method recurses with `currentEntry = null` and a strictly shorter `queue`
on every self-call, so it is rendered as a structural loop over the queue
list (kept in sync with the `queue` field). -/
def processNextLoop : QState → List QueueEntry → QState
  | s, [] => { s with speaking := false, events := s.events ++ [QEvent.finished] }
  | s, e :: rest =>
      if e.error then
        processNextLoop { s with queue := rest, events := s.events ++ [QEvent.errorEv] } rest
      else
        let s1 : QState :=
          { s with
            queue := rest,
            current := some ({ e with playPointer := e.audioChunks.length }),
            speaking := true,
            events := s.events ++ [QEvent.playing],
            promoted := s.promoted ++ [e.id],
            fed := s.fed ++ e.audioChunks.map (fun c => (e.id, c, e.sampleRate)) }
        if e.ready && e.audioChunks.isEmpty then
          processNextLoop { s1 with current := none, completed := s1.completed ++ [e.id] } rest
        else s1

/-- `processNext` (lines 110-143): entry guards plus the promotion loop. -/
def processNext (s : QState) : QState :=
  if s.draining then s
  else if s.current.isSome then s
  else processNextLoop s s.queue

/-- The entry `enqueue` builds for a fresh stream (lines 43-49). -/
def newEntry (n : Nat) : QueueEntry :=
  { id := n, audioChunks := [], sampleRate := 24000, ready := false,
    playPointer := 0, error := false }

/-- `enqueue` (lines 42-78): create the entry, append, `processNext`. -/
def enqueue (s : QState) : QState :=
  processNext { s with nextId := s.nextId + 1, queue := s.queue ++ [newEntry s.nextId] }

/-- The stream `audio` listener (lines 52-59): record the chunk on the
entry; feed it to the sender only when that entry is current. -/
def onAudio (s : QState) (k chunk rate : Nat) : QState :=
  match s.current with
  | some e =>
      if e.id = k then
        { s with
          current := some ({ e with
            audioChunks := e.audioChunks ++ [chunk],
            sampleRate := rate }),
          fed := s.fed ++ [(k, chunk, rate)] }
      else
        { s with queue := s.queue.map (fun e' =>
            if e'.id = k then
              { e' with audioChunks := e'.audioChunks ++ [chunk], sampleRate := rate }
            else e') }
  | none =>
      { s with queue := s.queue.map (fun e' =>
          if e'.id = k then
            { e' with audioChunks := e'.audioChunks ++ [chunk], sampleRate := rate }
          else e') }

/-- The stream `end` listener (lines 61-63): mark the entry ready. -/
def onEnd (s : QState) (k : Nat) : QState :=
  let q := s.queue.map (fun e' => if e'.id = k then { e' with ready := true } else e')
  match s.current with
  | some e =>
      if e.id = k then { s with current := some ({ e with ready := true }), queue := q }
      else { s with queue := q }
  | none => { s with queue := q }

/-- The stream `error` listener (lines 65-74): if the entry is current, drop
it and `processNext`; otherwise `removeEntry` deletes it from the queue
silently. -/
def onError (s : QState) (k : Nat) : QState :=
  match s.current with
  | some e =>
      if e.id = k then processNext { s with current := none }
      else { s with queue := s.queue.filter (fun e' => ¬ e'.id = k) }
  | none => { s with queue := s.queue.filter (fun e' => ¬ e'.id = k) }

/-- The sender `idle` listener (lines 31-35), guarded by `draining`. -/
def onIdle (s : QState) : QState :=
  if s.draining then s
  else
    match s.current with
    | some e => processNext { s with current := none, completed := s.completed ++ [e.id] }
    | none => processNext s

/-- `clear` (lines 84-102): cancel pending and current streams, stop the
sender, drop the bot-speaking flag, emit `cleared`, reset `draining`. -/
def clear (s : QState) : QState :=
  let s1 : QState := { s with draining := true }
  let s2 : QState :=
    { s1 with
      cancelled := s1.cancelled ++ (s1.queue.map QueueEntry.id),
      queue := [] }
  let s3 : QState :=
    match s2.current with
    | some e => { s2 with cancelled := s2.cancelled ++ [e.id], current := none }
    | none => s2
  { s3 with
    senderStops := s3.senderStops + 1,
    speaking := false,
    events := s3.events ++ [QEvent.cleared],
    draining := false }

/-- `isPlaying` getter (lines 104-106). -/
def isPlaying (s : QState) : Bool :=
  s.current.isSome || decide (0 < s.queue.length)

end QState

/-- External stimuli the queue reacts to. -/
inductive QOp
  | enqueue
  | audio (k chunk rate : Nat)
  | streamEnd (k : Nat)
  | streamError (k : Nat)
  | senderIdle
  | clear
  deriving DecidableEq, Repr

namespace QOp

/-- Claim C1 quantifies over interleavings of chunk arrivals, end signals
and sender idle events (no errors, no barge-in). -/
def isBenign : QOp → Bool
  | .clear => false
  | .streamError _ => false
  | _ => true

end QOp

/-- One stimulus. -/
def qStep (s : QState) : QOp → QState
  | .enqueue => s.enqueue
  | .audio k chunk rate => s.onAudio k chunk rate
  | .streamEnd k => s.onEnd k
  | .streamError k => s.onError k
  | .senderIdle => s.onIdle
  | .clear => s.clear

/-- Run a whole stimulus sequence. -/
def qRun (s : QState) : List QOp → QState
  | [] => s
  | op :: rest => qRun (qStep s op) rest

/-! ### Error handling of the playback queue (C3)

Proved facts: a stream erroring while pending is removed silently; a
stream erroring while current is dropped and the queue head is promoted;
and in both cases the queue emits no `error` event at all — the
`emit("error", ...)` branch in `processNext` can only see an errored entry
inside the queue, but the error listener removes such entries
immediately, so the branch is unreachable from the initial state. -/

/-- Reachable-state invariant: queued entries never carry an error flag and
the queue has never emitted an `error` event. -/
def NoErrInv (s : QState) : Prop :=
  (∀ e ∈ s.queue, e.error = false) ∧ QEvent.errorEv ∉ s.events

theorem noErrInv_processNextLoop (s : QState) (l : List QueueEntry)
    (hl : ∀ e ∈ l, e.error = false) (hev : QEvent.errorEv ∉ s.events)
    (hsync : ∀ e ∈ s.queue, e.error = false) :
    NoErrInv (QState.processNextLoop s l) := by
  induction l generalizing s with
  | nil =>
      constructor
      · intro e he
        simp only [QState.processNextLoop] at he
        exact hsync e he
      · simp [QState.processNextLoop, hev]
  | cons e rest ih =>
      have he : e.error = false := hl e (by simp)
      have hrest : ∀ e' ∈ rest, e'.error = false := fun e' h' => hl e' (by simp [h'])
      rw [QState.processNextLoop, if_neg (by simp [he])]
      by_cases hre : e.ready && e.audioChunks.isEmpty
      · rw [if_pos hre]
        exact ih _ hrest (by simp [hev]) hrest
      · rw [if_neg hre]
        exact ⟨hrest, by simp [hev]⟩

theorem noErrInv_processNext (s : QState) (h : NoErrInv s) :
    NoErrInv (QState.processNext s) := by
  obtain ⟨hq, hev⟩ := h
  unfold QState.processNext
  by_cases hd : s.draining
  · simpa [hd] using ⟨hq, hev⟩
  · rw [if_neg hd]
    by_cases hc : s.current.isSome
    · simpa [hc] using ⟨hq, hev⟩
    · rw [if_neg hc]
      exact noErrInv_processNextLoop s s.queue hq hev hq

theorem noErrInv_qStep (s : QState) (op : QOp) (h : NoErrInv s) :
    NoErrInv (qStep s op) := by
  obtain ⟨hq, hev⟩ := h
  cases op with
  | enqueue =>
      apply noErrInv_processNext
      constructor
      · intro e he
        rcases List.mem_append.mp he with h1 | h1
        · exact hq e h1
        · simp only [List.mem_singleton] at h1
          simp [h1, QState.newEntry]
      · exact hev
  | audio k chunk rate =>
      constructor
      · rcases hc : s.current with _ | e
        · simp only [qStep, QState.onAudio, hc]
          intro e' he'
          obtain ⟨e0, he0, rfl⟩ := List.mem_map.mp he'
          by_cases h0 : e0.id = k <;> simp [h0, hq e0 he0]
        · simp only [qStep, QState.onAudio, hc]
          by_cases hik : e.id = k
          · rw [if_pos hik]
            exact hq
          · rw [if_neg hik]
            intro e' he'
            obtain ⟨e0, he0, rfl⟩ := List.mem_map.mp he'
            by_cases h0 : e0.id = k <;> simp [h0, hq e0 he0]
      · rcases hc : s.current with _ | e
        · simpa [qStep, QState.onAudio, hc] using hev
        · simp only [qStep, QState.onAudio, hc]
          by_cases hik : e.id = k <;> simp [hik, hev]
  | streamEnd k =>
      have hmap : ∀ e' ∈ s.queue.map
          (fun e' => if e'.id = k then { e' with ready := true } else e'), e'.error = false := by
        intro e' he'
        obtain ⟨e0, he0, rfl⟩ := List.mem_map.mp he'
        by_cases h0 : e0.id = k <;> simp [h0, hq e0 he0]
      constructor
      · rcases hc : s.current with _ | e
        · simpa [qStep, QState.onEnd, hc] using hmap
        · simp only [qStep, QState.onEnd, hc]
          by_cases hik : e.id = k <;> simpa [hik] using hmap
      · rcases hc : s.current with _ | e
        · simpa [qStep, QState.onEnd, hc] using hev
        · simp only [qStep, QState.onEnd, hc]
          by_cases hik : e.id = k <;> simp [hik, hev]
  | streamError k =>
      have hfil : ∀ e' ∈ s.queue.filter (fun e' => ¬ e'.id = k), e'.error = false :=
        fun e' he' => hq e' (List.mem_of_mem_filter he')
      rcases hc : s.current with _ | e
      · exact ⟨by simpa [qStep, QState.onError, hc] using hfil,
          by simpa [qStep, QState.onError, hc] using hev⟩
      · simp only [qStep, QState.onError, hc]
        by_cases hik : e.id = k
        · rw [if_pos hik]
          exact noErrInv_processNext _ ⟨hq, hev⟩
        · rw [if_neg hik]
          exact ⟨hfil, hev⟩
  | senderIdle =>
      simp only [qStep, QState.onIdle]
      by_cases hd : s.draining
      · simpa [hd] using ⟨hq, hev⟩
      · rw [if_neg hd]
        rcases hc : s.current with _ | e
        · exact noErrInv_processNext _ ⟨hq, hev⟩
        · exact noErrInv_processNext _ ⟨hq, by simpa using hev⟩
  | clear =>
      rcases hc : s.current with _ | e <;>
        exact ⟨by simp [qStep, QState.clear, hc], by simp [qStep, QState.clear, hc, hev]⟩

theorem noErrInv_qRun (s : QState) (ops : List QOp) (h : NoErrInv s) :
    NoErrInv (qRun s ops) := by
  induction ops generalizing s with
  | nil => exact h
  | cons op rest ih => exact ih _ (noErrInv_qStep s op h)

theorem processNextLoop_promoted_prefix (l : List QueueEntry) :
    ∀ s : QState, ∃ t, (QState.processNextLoop s l).promoted = s.promoted ++ t := by
  induction l with
  | nil => intro s; exact ⟨[], by simp [QState.processNextLoop]⟩
  | cons e rest ih =>
      intro s
      rw [QState.processNextLoop]
      by_cases he : e.error
      · obtain ⟨t, ht⟩ := ih { s with queue := rest, events := s.events ++ [QEvent.errorEv] }
        exact ⟨t, by simpa [he] using ht⟩
      · rw [if_neg (by simpa using he)]
        by_cases hre : e.ready && e.audioChunks.isEmpty
        · rw [if_pos hre]
          obtain ⟨t, ht⟩ := ih _
          refine ⟨e.id :: t, ?_⟩
          rw [ht]
          simp
        · rw [if_neg hre]
          exact ⟨[e.id], by simp⟩

theorem processNextLoop_promotes_head (s : QState) (e0 : QueueEntry)
    (l' : List QueueEntry) (he : e0.error = false) :
    ∃ t, (QState.processNextLoop s (e0 :: l')).promoted = s.promoted ++ (e0.id :: t) := by
  rw [QState.processNextLoop, if_neg (by simp [he])]
  by_cases hre : e0.ready && e0.audioChunks.isEmpty
  · rw [if_pos hre]
    obtain ⟨t, ht⟩ := processNextLoop_promoted_prefix l' _
    refine ⟨t, ?_⟩
    rw [ht]
    simp
  · rw [if_neg hre]
    exact ⟨[], by simp⟩

theorem processNextLoop_draining (l : List QueueEntry) :
    ∀ s : QState, (QState.processNextLoop s l).draining = s.draining := by
  induction l with
  | nil => intro s; simp [QState.processNextLoop]
  | cons e rest ih =>
      intro s
      rw [QState.processNextLoop]
      by_cases he : e.error
      · simpa [he] using ih _
      · rw [if_neg (by simpa using he)]
        by_cases hre : e.ready && e.audioChunks.isEmpty
        · rw [if_pos hre]
          simpa using ih _
        · rw [if_neg hre]

theorem processNext_draining (s : QState) :
    (QState.processNext s).draining = s.draining := by
  unfold QState.processNext
  by_cases hd : s.draining
  · simp [hd]
  · rw [if_neg hd]
    by_cases hc : s.current.isSome
    · simp [hc]
    · rw [if_neg hc, processNextLoop_draining]

theorem qStep_draining (s : QState) (op : QOp) (h : s.draining = false) :
    (qStep s op).draining = false := by
  cases op with
  | enqueue => rw [qStep, QState.enqueue, processNext_draining]; exact h
  | audio k chunk rate =>
      rcases hc : s.current with _ | e
      · simpa [qStep, QState.onAudio, hc] using h
      · simp only [qStep, QState.onAudio, hc]
        by_cases hik : e.id = k <;> simp [hik, h]
  | streamEnd k =>
      rcases hc : s.current with _ | e
      · simpa [qStep, QState.onEnd, hc] using h
      · simp only [qStep, QState.onEnd, hc]
        by_cases hik : e.id = k <;> simp [hik, h]
  | streamError k =>
      rcases hc : s.current with _ | e
      · simpa [qStep, QState.onError, hc] using h
      · simp only [qStep, QState.onError, hc]
        by_cases hik : e.id = k
        · rw [if_pos hik, processNext_draining]
          exact h
        · simpa [hik] using h
  | senderIdle =>
      simp only [qStep, QState.onIdle]
      rw [if_neg (by simp [h])]
      rcases hc : s.current with _ | e
      · rw [processNext_draining]; exact h
      · rw [processNext_draining]; exact h
  | clear =>
      rcases hc : s.current with _ | e <;> simp [qStep, QState.clear, hc]

theorem qRun_draining (ops : List QOp) :
    (qRun QState.qInit ops).draining = false := by
  have hgen : ∀ (s : QState), s.draining = false → (qRun s ops).draining = false := by
    induction ops with
    | nil => intro s h; exact h
    | cons op rest ih => intro s h; exact ih _ (qStep_draining s op h)
  exact hgen _ rfl

/-- C3 counterexample: enqueue two streams, then let the first (current)
stream error.  The next entry is promoted, but the queue emits no `error`
event — only the two `playing` emissions — contradicting the claim that an
error of the current entry is surfaced as a queue-level error event. -/
theorem streamError_current_counterexample :
    (qRun QState.qInit [QOp.enqueue, QOp.enqueue, QOp.streamError 0]).events =
      [QEvent.playing, QEvent.playing] ∧
    (qRun QState.qInit [QOp.enqueue, QOp.enqueue, QOp.streamError 0]).promoted =
      [0, 1] := by
  constructor <;> rfl

/-- C3 (amended): on a stream error the queue never emits a queue-level
`error` event; an error of a pending (non-current) entry removes it from
the queue silently (no event at all); an error of the current entry drops
it and promotes the queue's head entry (which may complete instantly and
promote further). -/
theorem streamError_spec (ops : List QOp) (k : Nat) :
    QEvent.errorEv ∉ ((qRun QState.qInit ops).onError k).events ∧
    ((∀ e, (qRun QState.qInit ops).current = some e → ¬ e.id = k) →
      ((qRun QState.qInit ops).onError k).queue =
          (qRun QState.qInit ops).queue.filter (fun e' => ¬ e'.id = k) ∧
      ((qRun QState.qInit ops).onError k).events = (qRun QState.qInit ops).events) ∧
    (∀ e, (qRun QState.qInit ops).current = some e → e.id = k →
      (∀ e0 l', (qRun QState.qInit ops).queue = e0 :: l' →
        ∃ t, ((qRun QState.qInit ops).onError k).promoted =
          (qRun QState.qInit ops).promoted ++ (e0.id :: t)) ∧
      ((qRun QState.qInit ops).queue = [] →
        ((qRun QState.qInit ops).onError k).promoted =
            (qRun QState.qInit ops).promoted ∧
        ((qRun QState.qInit ops).onError k).current = none)) := by
  set s := qRun QState.qInit ops with hs
  have hinv : NoErrInv s := noErrInv_qRun _ _ ⟨by simp [QState.qInit], by simp [QState.qInit]⟩
  have hdrain : s.draining = false := qRun_draining ops
  have hstep : s.onError k = qStep s (QOp.streamError k) := rfl
  refine ⟨?_, ?_, ?_⟩
  · have := noErrInv_qStep s (QOp.streamError k) hinv
    rw [hstep]
    exact this.2
  · intro hnc
    rcases hc : s.current with _ | e
    · exact ⟨by simp [QState.onError, hc], by simp [QState.onError, hc]⟩
    · have hik : ¬ e.id = k := hnc e hc
      exact ⟨by simp [QState.onError, hc, hik], by simp [QState.onError, hc, hik]⟩
  · intro e hc hik
    have hloop0 : s.onError k = QState.processNext { s with current := none } := by
      simp [QState.onError, hc, hik]
    have hloop : s.onError k =
        QState.processNextLoop { s with current := none } s.queue := by
      rw [hloop0, QState.processNext]
      rw [if_neg (by simpa using hdrain)]
      rw [if_neg (by simp)]
    constructor
    · intro e0 l' hq
      have he0 : e0.error = false := hinv.1 e0 (by simp [hq])
      obtain ⟨t, ht⟩ :=
        processNextLoop_promotes_head ({ s with current := none }) e0 l' he0
      refine ⟨t, ?_⟩
      rw [hloop]
      conv_lhs => rw [show s.queue = e0 :: l' from hq]
      simpa using ht
    · intro hq
      rw [hloop, hq]
      exact ⟨by simp [QState.processNextLoop], by simp [QState.processNextLoop]⟩

/-- Witness for `streamError_spec`: two enqueued streams, the current one
(`id 0`) errors; no error event is emitted and entry 1 is promoted. -/
theorem streamError_spec_witness :
    QEvent.errorEv ∉
      ((qRun QState.qInit [QOp.enqueue, QOp.enqueue]).onError 0).events ∧
    ∃ t, ((qRun QState.qInit [QOp.enqueue, QOp.enqueue]).onError 0).promoted =
      (qRun QState.qInit [QOp.enqueue, QOp.enqueue]).promoted ++ (1 :: t) := by
  have h := streamError_spec [QOp.enqueue, QOp.enqueue] 0
  refine ⟨h.1, ?_⟩
  have h3 := (h.2.2 ((qRun QState.qInit [QOp.enqueue, QOp.enqueue]).current.get (by rfl))
        (by rfl) (by rfl)).1
  have hq : (qRun QState.qInit [QOp.enqueue, QOp.enqueue]).queue =
      { id := 1, audioChunks := [], sampleRate := 24000, ready := false,
        playPointer := 0, error := false } :: [] := by rfl
  simpa using h3 _ _ hq

/-! ### Barge-in atomicity (C2)

After `clear()` every id that can ever again reach the sender is at least
the `nextId` at clear time: the queue and current slot are empty, fresh
enqueues receive ids from `nextId` upward, and chunks are only fed from
the current entry or at promotion. -/

/-- Every id the queue can still feed is at least `B`. -/
def IdsFrom (B : Nat) (s : QState) : Prop :=
  B ≤ s.nextId ∧ (∀ e ∈ s.queue, B ≤ e.id) ∧ (∀ e, s.current = some e → B ≤ e.id)

theorem idsFrom_processNextLoop (B : Nat) (l : List QueueEntry) :
    ∀ s : QState, l = s.queue → B ≤ s.nextId → (∀ e ∈ s.queue, B ≤ e.id) →
    (∀ e, s.current = some e → B ≤ e.id) →
    IdsFrom B (QState.processNextLoop s l) ∧
      ∀ x ∈ (QState.processNextLoop s l).fed, x ∈ s.fed ∨ B ≤ x.1 := by
  induction l with
  | nil =>
      intro s hsync hn hsq hc
      refine ⟨⟨?_, ?_, ?_⟩, ?_⟩
      · simpa [QState.processNextLoop] using hn
      · intro e he
        simp only [QState.processNextLoop] at he
        exact hsq e he
      · intro e he
        simp only [QState.processNextLoop] at he
        exact hc e he
      · intro x hx
        simp only [QState.processNextLoop] at hx
        exact Or.inl hx
  | cons e rest ih =>
      intro s hsync hn hsq hc
      have hid : B ≤ e.id := hsq e (hsync ▸ List.mem_cons_self e rest)
      have hrest : ∀ e' ∈ rest, B ≤ e'.id := fun e' h' =>
        hsq e' (hsync ▸ List.mem_cons_of_mem e h')
      rw [QState.processNextLoop]
      by_cases he : e.error
      · rw [if_pos (by simpa using he)]
        have h2 := ih { s with queue := rest, events := s.events ++ [QEvent.errorEv] }
          rfl hn hrest hc
        exact ⟨h2.1, fun x hx => h2.2 x hx⟩
      · rw [if_neg (by simpa using he)]
        by_cases hre : e.ready && e.audioChunks.isEmpty
        · rw [if_pos hre]
          have h2 := ih
            { s with
              queue := rest,
              current := none,
              speaking := true,
              events := s.events ++ [QEvent.playing],
              promoted := s.promoted ++ [e.id],
              fed := s.fed ++ e.audioChunks.map (fun c => (e.id, c, e.sampleRate)),
              completed := s.completed ++ [e.id] }
            rfl hn hrest (by intro e' h'; simp at h')
          refine ⟨h2.1, ?_⟩
          intro x hx
          rcases h2.2 x hx with hx' | hB
          · simp only [List.mem_append] at hx'
            rcases hx' with hx' | hx'
            · exact Or.inl hx'
            · obtain ⟨c, _, rfl⟩ := List.mem_map.mp hx'
              exact Or.inr hid
          · exact Or.inr hB
        · rw [if_neg hre]
          refine ⟨⟨by simpa using hn, fun e' h' => hrest e' (by simpa using h'), ?_⟩, ?_⟩
          · intro e' h'
            simp only [Option.some.injEq] at h'
            subst h'
            exact hid
          · intro x hx
            simp only [List.mem_append] at hx
            rcases hx with hx | hx
            · exact Or.inl hx
            · obtain ⟨c, _, rfl⟩ := List.mem_map.mp hx
              exact Or.inr hid

theorem idsFrom_processNext (B : Nat) (s : QState) (h : IdsFrom B s) :
    IdsFrom B (QState.processNext s) ∧
      ∀ x ∈ (QState.processNext s).fed, x ∈ s.fed ∨ B ≤ x.1 := by
  obtain ⟨hn, hq, hc⟩ := h
  unfold QState.processNext
  by_cases hd : s.draining
  · rw [if_pos (by simpa using hd)]
    exact ⟨⟨hn, hq, hc⟩, fun x hx => Or.inl hx⟩
  · rw [if_neg (by simpa using hd)]
    by_cases hcs : s.current.isSome
    · rw [if_pos hcs]
      exact ⟨⟨hn, hq, hc⟩, fun x hx => Or.inl hx⟩
    · rw [if_neg hcs]
      exact idsFrom_processNextLoop B s.queue s rfl hn hq hc

theorem idsFrom_qStep (B : Nat) (s : QState) (op : QOp) (h : IdsFrom B s) :
    IdsFrom B (qStep s op) ∧ ∀ x ∈ (qStep s op).fed, x ∈ s.fed ∨ B ≤ x.1 := by
  obtain ⟨hn, hq, hc⟩ := h
  cases op with
  | enqueue =>
      have hpre : IdsFrom B
          { s with nextId := s.nextId + 1, queue := s.queue ++ [QState.newEntry s.nextId] } := by
        refine ⟨by simpa using Nat.le_succ_of_le hn, ?_, by simpa using hc⟩
        intro e he
        rcases List.mem_append.mp he with h1 | h1
        · exact hq e h1
        · simp only [List.mem_singleton] at h1
          simp [h1, QState.newEntry, hn]
      exact idsFrom_processNext B _ hpre
  | audio k chunk rate =>
      rcases hcur : s.current with _ | e
      · refine ⟨⟨by simpa [qStep, QState.onAudio, hcur] using hn, ?_, ?_⟩, ?_⟩
        · intro e' he'
          simp only [qStep, QState.onAudio, hcur] at he'
          obtain ⟨e0, he0, rfl⟩ := List.mem_map.mp he'
          by_cases h0 : e0.id = k <;> simpa [h0] using hq e0 he0
        · intro e' he'
          simp [qStep, QState.onAudio, hcur] at he'
        · intro x hx
          simp only [qStep, QState.onAudio, hcur] at hx
          exact Or.inl hx
      · simp only [qStep, QState.onAudio, hcur]
        by_cases hik : e.id = k
        · rw [if_pos hik]
          refine ⟨⟨by simpa using hn, by simpa using hq, ?_⟩, ?_⟩
          · intro e' he'
            simp only [Option.some.injEq] at he'
            subst he'
            exact hc e hcur
          · intro x hx
            simp only [List.mem_append] at hx
            rcases hx with hx | hx
            · exact Or.inl hx
            · simp only [List.mem_singleton] at hx
              subst hx
              exact Or.inr (hik ▸ hc e hcur)
        · rw [if_neg hik]
          refine ⟨⟨by simpa using hn, ?_, ?_⟩, ?_⟩
          · intro e' he'
            simp only at he'
            obtain ⟨e0, he0, rfl⟩ := List.mem_map.mp he'
            by_cases h0 : e0.id = k <;> simpa [h0] using hq e0 he0
          · intro e' he'
            simp only [Option.some.injEq] at he'
            subst he'
            exact hc e hcur
          · intro x hx
            exact Or.inl hx
  | streamEnd k =>
      have hmap : ∀ e' ∈ s.queue.map
          (fun e' => if e'.id = k then { e' with ready := true } else e'), B ≤ e'.id := by
        intro e' he'
        obtain ⟨e0, he0, rfl⟩ := List.mem_map.mp he'
        by_cases h0 : e0.id = k <;> simpa [h0] using hq e0 he0
      rcases hcur : s.current with _ | e
      · refine ⟨⟨by simpa [qStep, QState.onEnd, hcur] using hn, ?_, ?_⟩, ?_⟩
        · intro e' he'
          simp only [qStep, QState.onEnd, hcur] at he'
          exact hmap e' he'
        · intro e' he'
          simp [qStep, QState.onEnd, hcur] at he'
        · intro x hx
          simp only [qStep, QState.onEnd, hcur] at hx
          exact Or.inl hx
      · simp only [qStep, QState.onEnd, hcur]
        by_cases hik : e.id = k
        · rw [if_pos hik]
          refine ⟨⟨by simpa using hn, by simpa using hmap, ?_⟩, ?_⟩
          · intro e' he'
            simp only [Option.some.injEq] at he'
            subst he'
            exact hc e hcur
          · intro x hx
            exact Or.inl hx
        · rw [if_neg hik]
          refine ⟨⟨by simpa using hn, by simpa using hmap, ?_⟩, ?_⟩
          · intro e' he'
            simp only [Option.some.injEq] at he'
            subst he'
            exact hc e hcur
          · intro x hx
            exact Or.inl hx
  | streamError k =>
      have hfil : ∀ e' ∈ s.queue.filter (fun e' => ¬ e'.id = k), B ≤ e'.id :=
        fun e' he' => hq e' (List.mem_of_mem_filter he')
      rcases hcur : s.current with _ | e
      · refine ⟨⟨by simpa [qStep, QState.onError, hcur] using hn, ?_, ?_⟩, ?_⟩
        · intro e' he'
          simp only [qStep, QState.onError, hcur] at he'
          exact hfil e' he'
        · intro e' he'
          simp [qStep, QState.onError, hcur] at he'
        · intro x hx
          simp only [qStep, QState.onError, hcur] at hx
          exact Or.inl hx
      · simp only [qStep, QState.onError, hcur]
        by_cases hik : e.id = k
        · rw [if_pos hik]
          exact idsFrom_processNext B _ ⟨by simpa using hn, by simpa using hq, by simp⟩
        · rw [if_neg hik]
          refine ⟨⟨by simpa using hn, by simpa using hfil, ?_⟩, ?_⟩
          · intro e' he'
            simp only [Option.some.injEq] at he'
            subst he'
            exact hc e hcur
          · intro x hx
            exact Or.inl hx
  | senderIdle =>
      simp only [qStep, QState.onIdle]
      by_cases hd : s.draining
      · rw [if_pos (by simpa using hd)]
        exact ⟨⟨hn, hq, hc⟩, fun x hx => Or.inl hx⟩
      · rw [if_neg (by simpa using hd)]
        rcases hcur : s.current with _ | e
        · exact idsFrom_processNext B s ⟨hn, hq, hc⟩
        · exact idsFrom_processNext B _ ⟨by simpa using hn, by simpa using hq, by simp⟩
  | clear =>
      rcases hcur : s.current with _ | e
      · refine ⟨⟨by simpa [qStep, QState.clear, hcur] using hn, ?_, ?_⟩, ?_⟩
        · intro e' he'
          simp [qStep, QState.clear, hcur] at he'
        · intro e' he'
          simp [qStep, QState.clear, hcur] at he'
        · intro x hx
          simp only [qStep, QState.clear, hcur] at hx
          exact Or.inl hx
      · refine ⟨⟨by simpa [qStep, QState.clear, hcur] using hn, ?_, ?_⟩, ?_⟩
        · intro e' he'
          simp [qStep, QState.clear, hcur] at he'
        · intro e' he'
          simp [qStep, QState.clear, hcur] at he'
        · intro x hx
          simp only [qStep, QState.clear, hcur] at hx
          exact Or.inl hx

theorem idsFrom_qRun (B : Nat) (ops : List QOp) :
    ∀ s : QState, IdsFrom B s →
    IdsFrom B (qRun s ops) ∧ ∀ x ∈ (qRun s ops).fed, x ∈ s.fed ∨ B ≤ x.1 := by
  induction ops with
  | nil => intro s h; exact ⟨h, fun x hx => Or.inl hx⟩
  | cons op rest ih =>
      intro s h
      obtain ⟨h1, h2⟩ := idsFrom_qStep B s op h
      obtain ⟨h3, h4⟩ := ih (qStep s op) h1
      refine ⟨h3, ?_⟩
      intro x hx
      rcases h4 x hx with hx' | hB
      · exact h2 x hx'
      · exact Or.inr hB

/-- C2: after `clear()` every pending and current stream has been
cancelled, the sender has been stopped, the bot-speaking flag is cleared,
`isPlaying` is false, and — whatever stimuli follow — no chunk of any
stream enqueued before the clear (id below the `nextId` at clear time) is
ever fed to the sender afterwards. -/
theorem clear_spec (s : QState) (ops : List QOp) :
    (∀ e ∈ s.queue, e.id ∈ s.clear.cancelled) ∧
    (∀ e, s.current = some e → e.id ∈ s.clear.cancelled) ∧
    s.clear.senderStops = s.senderStops + 1 ∧
    s.clear.speaking = false ∧
    s.clear.isPlaying = false ∧
    (∀ x ∈ (qRun s.clear ops).fed, x ∈ s.fed ∨ s.nextId ≤ x.1) := by
  have hclear : IdsFrom s.nextId s.clear := by
    rcases hcur : s.current with _ | e
    · exact ⟨by simp [QState.clear, hcur], by simp [QState.clear, hcur],
        by simp [QState.clear, hcur]⟩
    · exact ⟨by simp [QState.clear, hcur], by simp [QState.clear, hcur],
        by simp [QState.clear, hcur]⟩
  have hfed : s.clear.fed = s.fed := by
    rcases hcur : s.current with _ | e <;> simp [QState.clear, hcur]
  refine ⟨?_, ?_, ?_, ?_, ?_, ?_⟩
  · intro e he
    rcases hcur : s.current with _ | e' <;>
      simp [QState.clear, hcur, List.mem_map]
    · exact Or.inr ⟨e, he, rfl⟩
    · exact Or.inr (Or.inl ⟨e, he, rfl⟩)
  · intro e he
    simp [QState.clear, he]
  · rcases hcur : s.current with _ | e <;> simp [QState.clear, hcur]
  · rcases hcur : s.current with _ | e <;> simp [QState.clear, hcur]
  · rcases hcur : s.current with _ | e <;>
      simp [QState.clear, QState.isPlaying, hcur]
  · intro x hx
    have := (idsFrom_qRun s.nextId ops s.clear hclear).2 x hx
    rwa [hfed] at this

/-- Witness for `clear_spec`: clear a queue with one current and one
pending entry, then enqueue and play a fresh stream; every chunk fed after
the clear belongs to the fresh (id 2) stream. -/
theorem clear_spec_witness :
    let s := qRun QState.qInit
      [QOp.enqueue, QOp.enqueue, QOp.audio 0 7 24000, QOp.audio 1 8 24000]
    (∀ e ∈ s.queue, e.id ∈ s.clear.cancelled) ∧
    s.clear.isPlaying = false ∧
    (∀ x ∈ (qRun s.clear [QOp.enqueue, QOp.audio 2 9 24000]).fed,
      x ∈ s.fed ∨ s.nextId ≤ x.1) := by
  intro s
  have h := clear_spec s [QOp.enqueue, QOp.audio 2 9 24000]
  exact ⟨h.1, h.2.2.2.2.1, h.2.2.2.2.2⟩

/-! ### FIFO ordering (C1)

The queue's entries always form the contiguous id range `[p, nextId)`
where `p` counts promotions so far; promotions and completions therefore
happen exactly in enqueue order 0, 1, 2, ... whatever the interleaving of
chunk arrivals, end signals and sender idle events. -/

theorem range'_concat_self (p k : Nat) :
    List.range' p k ++ [p + k] = List.range' p (k + 1) := by
  induction k generalizing p with
  | zero => simp
  | succ k ih =>
      rw [List.range'_succ, List.range'_succ, List.cons_append]
      congr 1
      have h1 : p + (k + 1) = (p + 1) + k := by omega
      rw [h1]
      exact ih (p + 1)

/-- The FIFO invariant of the playback queue under benign stimuli. -/
def OrderInv (s : QState) : Prop :=
  s.draining = false ∧
  (∀ e ∈ s.queue, e.error = false) ∧
  ∃ p, p ≤ s.nextId ∧
    s.promoted = List.range p ∧
    s.queue.map QueueEntry.id = List.range' p (s.nextId - p) ∧
    ((s.current = none ∧ s.completed = List.range p) ∨
     (∃ e, s.current = some e ∧ e.id + 1 = p ∧ s.completed = List.range e.id))

theorem orderInv_processNextLoop :
    ∀ (l : List QueueEntry) (s : QState) (p : Nat),
    l = s.queue →
    s.draining = false →
    (∀ e ∈ l, e.error = false) →
    p ≤ s.nextId →
    s.promoted = List.range p →
    l.map QueueEntry.id = List.range' p (s.nextId - p) →
    s.current = none →
    s.completed = List.range p →
    OrderInv (QState.processNextLoop s l) := by
  intro l
  induction l with
  | nil =>
      intro s p hsync hd herr hp hprom hids hcur hcomp
      refine ⟨by simpa [QState.processNextLoop] using hd, ?_, p, ?_⟩
      · intro e he
        simp only [QState.processNextLoop] at he
        rw [← hsync] at he
        simp at he
      · refine ⟨hp, by simpa [QState.processNextLoop] using hprom, ?_, ?_⟩
        · simp only [QState.processNextLoop]
          rw [← hsync]
          simpa using hids
        · exact Or.inl ⟨by simpa [QState.processNextLoop] using hcur,
            by simpa [QState.processNextLoop] using hcomp⟩
  | cons e rest ih =>
      intro s p hsync hd herr hp hprom hids hcur hcomp
      have he : e.error = false := herr e (by simp)
      have hrest : ∀ e' ∈ rest, e'.error = false := fun e' h' => herr e' (by simp [h'])
      have hk : ∃ k, s.nextId - p = k + 1 := by
        rcases hn : s.nextId - p with _ | k
        · rw [hn] at hids
          simp at hids
        · exact ⟨k, rfl⟩
      obtain ⟨k, hk⟩ := hk
      rw [hk, List.range'_succ] at hids
      simp only [List.map_cons, List.cons.injEq] at hids
      obtain ⟨heid, hidrest⟩ := hids
      have hnp : s.nextId = p + k + 1 := by omega
      have hrest_ids : rest.map QueueEntry.id = List.range' (p + 1) (s.nextId - (p + 1)) := by
        rw [hidrest]
        congr 1
        omega
      rw [QState.processNextLoop, if_neg (by simp [he])]
      by_cases hre : e.ready && e.audioChunks.isEmpty
      · rw [if_pos hre]
        apply ih _ (p + 1) rfl (by simpa using hd) hrest
          (by show p + 1 ≤ s.nextId; omega)
        · show s.promoted ++ [e.id] = List.range (p + 1)
          rw [hprom, heid, List.range_succ]
        · show rest.map QueueEntry.id = List.range' (p + 1) (s.nextId - (p + 1))
          exact hrest_ids
        · rfl
        · show s.completed ++ [e.id] = List.range (p + 1)
          rw [hcomp, heid, List.range_succ]
      · rw [if_neg hre]
        refine ⟨by simpa using hd, by simpa using hrest, p + 1,
          by show p + 1 ≤ s.nextId; omega, ?_, ?_, ?_⟩
        · simp only
          rw [hprom, heid, List.range_succ]
        · simpa using hrest_ids
        · refine Or.inr ⟨{ e with playPointer := e.audioChunks.length }, by simp, ?_, ?_⟩
          · show e.id + 1 = p + 1
            rw [heid]
          · show s.completed = List.range e.id
            rw [hcomp, heid]

theorem orderInv_processNext (s : QState) (h : OrderInv s) :
    OrderInv (QState.processNext s) := by
  obtain ⟨hd, herr, p, hp, hprom, hids, hdisj⟩ := h
  unfold QState.processNext
  rw [if_neg (by simp [hd])]
  rcases hdisj with ⟨hcur, hcomp⟩ | ⟨e, hcur, hep, hcomp⟩
  · rw [if_neg (by simp [hcur])]
    exact orderInv_processNextLoop s.queue s p rfl hd herr hp hprom hids hcur hcomp
  · rw [if_pos (by simp [hcur])]
    exact ⟨hd, herr, p, hp, hprom, hids, Or.inr ⟨e, hcur, hep, hcomp⟩⟩

theorem orderInv_qStep (s : QState) (op : QOp) (hop : QOp.isBenign op = true)
    (h : OrderInv s) : OrderInv (qStep s op) := by
  obtain ⟨hd, herr, p, hp, hprom, hids, hdisj⟩ := h
  cases op with
  | clear => simp [QOp.isBenign] at hop
  | streamError k => simp [QOp.isBenign] at hop
  | enqueue =>
      apply orderInv_processNext
      refine ⟨hd, ?_, p, by show p ≤ s.nextId + 1; omega, hprom, ?_, ?_⟩
      · intro e he
        rcases List.mem_append.mp he with h1 | h1
        · exact herr e h1
        · simp only [List.mem_singleton] at h1
          simp [h1, QState.newEntry]
      · simp only [List.map_append]
        rw [hids]
        have hnid : s.nextId = p + (s.nextId - p) := by omega
        calc List.range' p (s.nextId - p) ++ List.map QueueEntry.id [QState.newEntry s.nextId]
            = List.range' p (s.nextId - p) ++ [p + (s.nextId - p)] := by
              rw [QState.newEntry]
              simp only [List.map_cons, List.map_nil]
              rw [← hnid]
          _ = List.range' p (s.nextId - p + 1) := range'_concat_self _ _
          _ = List.range' p (s.nextId + 1 - p) := by congr 1; omega
      · rcases hdisj with ⟨hcur, hcomp⟩ | ⟨e, hcur, hep, hcomp⟩
        · exact Or.inl ⟨hcur, hcomp⟩
        · exact Or.inr ⟨e, hcur, hep, hcomp⟩
  | audio k chunk rate =>
      have hqmap : ∀ f : QueueEntry → QueueEntry, (∀ e, (f e).id = e.id) →
          (∀ e, (f e).error = e.error) →
          (∀ e' ∈ s.queue.map f, e'.error = false) ∧
          (s.queue.map f).map QueueEntry.id = List.range' p (s.nextId - p) := by
        intro f hfid hferr
        constructor
        · intro e' he'
          obtain ⟨e0, he0, rfl⟩ := List.mem_map.mp he'
          rw [hferr]
          exact herr e0 he0
        · rw [List.map_map]
          rw [show QueueEntry.id ∘ f = QueueEntry.id from funext hfid]
          exact hids
      rcases hcur : s.current with _ | e
      · have hfst := hqmap (fun e' => if e'.id = k then
            { e' with audioChunks := e'.audioChunks ++ [chunk], sampleRate := rate } else e')
          (by intro e0; by_cases h0 : e0.id = k <;> simp [h0])
          (by intro e0; by_cases h0 : e0.id = k <;> simp [h0])
        refine ⟨by simpa [qStep, QState.onAudio, hcur] using hd, ?_, p,
          by simpa [qStep, QState.onAudio, hcur] using hp, ?_, ?_, ?_⟩
        · intro e' he'
          simp only [qStep, QState.onAudio, hcur] at he'
          exact hfst.1 e' he'
        · simpa [qStep, QState.onAudio, hcur] using hprom
        · simp only [qStep, QState.onAudio, hcur]
          exact hfst.2
        · rcases hdisj with ⟨hcn, hcomp⟩ | ⟨e, hc2, _, _⟩
          · exact Or.inl ⟨by simp [qStep, QState.onAudio, hcur],
              by simpa [qStep, QState.onAudio, hcur] using hcomp⟩
          · rw [hcur] at hc2
            exact absurd hc2 (by simp)
      · simp only [qStep, QState.onAudio, hcur]
        by_cases hik : e.id = k
        · rw [if_pos hik]
          refine ⟨by simpa using hd, by simpa using herr, p, by simpa using hp,
            by simpa using hprom, by simpa using hids, ?_⟩
          rcases hdisj with ⟨hcn, _⟩ | ⟨e0, hc2, hep, hcomp⟩
          · rw [hcur] at hcn
            exact absurd hcn (by simp)
          · rw [hcur] at hc2
            injection hc2 with hc2
            subst hc2
            exact Or.inr ⟨_, rfl, by simpa using hep, by simpa using hcomp⟩
        · rw [if_neg hik]
          have hfst := hqmap (fun e' => if e'.id = k then
              { e' with audioChunks := e'.audioChunks ++ [chunk], sampleRate := rate } else e')
            (by intro e0; by_cases h0 : e0.id = k <;> simp [h0])
            (by intro e0; by_cases h0 : e0.id = k <;> simp [h0])
          refine ⟨by simpa using hd, ?_, p, by simpa using hp, by simpa using hprom, ?_, ?_⟩
          · intro e' he'
            simp only at he'
            exact hfst.1 e' he'
          · simp only
            exact hfst.2
          · rcases hdisj with ⟨hcn, _⟩ | ⟨e0, hc2, hep, hcomp⟩
            · rw [hcur] at hcn
              exact absurd hcn (by simp)
            · rw [hcur] at hc2
              injection hc2 with hc2
              subst hc2
              exact Or.inr ⟨e, by simp [hcur], hep, by simpa using hcomp⟩
  | streamEnd k =>
      have hfst : (∀ e' ∈ s.queue.map (fun e' => if e'.id = k then
            { e' with ready := true } else e'), e'.error = false) ∧
          (s.queue.map (fun e' => if e'.id = k then { e' with ready := true } else e')).map
              QueueEntry.id = List.range' p (s.nextId - p) := by
        constructor
        · intro e' he'
          obtain ⟨e0, he0, rfl⟩ := List.mem_map.mp he'
          by_cases h0 : e0.id = k <;> simpa [h0] using herr e0 he0
        · rw [List.map_map]
          have : QueueEntry.id ∘ (fun e' => if e'.id = k then
              { e' with ready := true } else e') = QueueEntry.id := by
            funext e0
            by_cases h0 : e0.id = k <;> simp [h0]
          rw [this]
          exact hids
      rcases hcur : s.current with _ | e
      · refine ⟨by simpa [qStep, QState.onEnd, hcur] using hd, ?_, p,
          by simpa [qStep, QState.onEnd, hcur] using hp, ?_, ?_, ?_⟩
        · intro e' he'
          simp only [qStep, QState.onEnd, hcur] at he'
          exact hfst.1 e' he'
        · simpa [qStep, QState.onEnd, hcur] using hprom
        · simp only [qStep, QState.onEnd, hcur]
          exact hfst.2
        · rcases hdisj with ⟨hcn, hcomp⟩ | ⟨e0, hc2, _, _⟩
          · exact Or.inl ⟨by simp [qStep, QState.onEnd, hcur],
              by simpa [qStep, QState.onEnd, hcur] using hcomp⟩
          · rw [hcur] at hc2
            exact absurd hc2 (by simp)
      · simp only [qStep, QState.onEnd, hcur]
        by_cases hik : e.id = k
        · rw [if_pos hik]
          refine ⟨by simpa using hd, ?_, p, by simpa using hp, by simpa using hprom, ?_, ?_⟩
          · intro e' he'
            simp only at he'
            exact hfst.1 e' he'
          · simp only
            exact hfst.2
          · rcases hdisj with ⟨hcn, _⟩ | ⟨e0, hc2, hep, hcomp⟩
            · rw [hcur] at hcn
              exact absurd hcn (by simp)
            · rw [hcur] at hc2
              injection hc2 with hc2
              subst hc2
              refine Or.inr ⟨{ e with ready := true }, by simp, ?_, ?_⟩
              · show e.id + 1 = p
                simpa using hep
              · show s.completed = List.range e.id
                simpa using hcomp
        · rw [if_neg hik]
          refine ⟨by simpa using hd, ?_, p, by simpa using hp, by simpa using hprom, ?_, ?_⟩
          · intro e' he'
            simp only at he'
            exact hfst.1 e' he'
          · simp only
            exact hfst.2
          · rcases hdisj with ⟨hcn, _⟩ | ⟨e0, hc2, hep, hcomp⟩
            · rw [hcur] at hcn
              exact absurd hcn (by simp)
            · rw [hcur] at hc2
              injection hc2 with hc2
              subst hc2
              exact Or.inr ⟨e, by simp [hcur], hep, by simpa using hcomp⟩
  | senderIdle =>
      simp only [qStep, QState.onIdle]
      rw [if_neg (by simp [hd])]
      rcases hcur : s.current with _ | e
      · apply orderInv_processNext
        refine ⟨hd, herr, p, hp, hprom, hids, ?_⟩
        rcases hdisj with ⟨_, hcomp⟩ | ⟨e0, hc2, _, _⟩
        · exact Or.inl ⟨hcur, hcomp⟩
        · rw [hcur] at hc2
          exact absurd hc2 (by simp)
      · apply orderInv_processNext
        rcases hdisj with ⟨hcn, _⟩ | ⟨e0, hc2, hep, hcomp⟩
        · rw [hcur] at hcn
          exact absurd hcn (by simp)
        · rw [hcur] at hc2
          injection hc2 with hc2
          subst hc2
          refine ⟨by simpa using hd, by simpa using herr, p, by simpa using hp,
            by simpa using hprom, by simpa using hids, ?_⟩
          refine Or.inl ⟨by simp, ?_⟩
          simp only
          rw [hcomp, ← hep, List.range_succ]

theorem orderInv_qRun (ops : List QOp) :
    ∀ s : QState, (∀ op ∈ ops, QOp.isBenign op = true) → OrderInv s →
    OrderInv (qRun s ops) := by
  induction ops with
  | nil => intro s _ h; exact h
  | cons op rest ih =>
      intro s hb h
      exact ih _ (fun o ho => hb o (by simp [ho]))
        (orderInv_qStep s op (hb op (by simp)) h)

/-- C1: strict FIFO.  Under any interleaving of enqueues, chunk arrivals,
end signals and sender idle events, the ids promoted to current are
exactly `0, 1, ..., p-1` in that order, and the ids that completed
playback are exactly `0, 1, ..., c-1` in that order — promotion and
completion order both equal enqueue order, regardless of when each
stream's synthesis delivers chunks or ends. -/
theorem playback_fifo (ops : List QOp)
    (hb : ∀ op ∈ ops, QOp.isBenign op = true) :
    ∃ p c, c ≤ p ∧
      (qRun QState.qInit ops).promoted = List.range p ∧
      (qRun QState.qInit ops).completed = List.range c := by
  have hinit : OrderInv QState.qInit := by
    refine ⟨rfl, by simp [QState.qInit], 0, by simp [QState.qInit], rfl, by simp [QState.qInit], ?_⟩
    exact Or.inl ⟨rfl, rfl⟩
  obtain ⟨_, _, p, _, hprom, _, hdisj⟩ := orderInv_qRun ops QState.qInit hb hinit
  rcases hdisj with ⟨_, hcomp⟩ | ⟨e, _, hep, hcomp⟩
  · exact ⟨p, p, le_refl p, hprom, hcomp⟩
  · exact ⟨p, e.id, by omega, hprom, hcomp⟩

/-- Witness for `playback_fifo`: stream 1 finishes synthesis before stream
0 has played; promotion and completion still happen as 0 then 1. -/
theorem playback_fifo_witness :
    (∀ op ∈ [QOp.enqueue, QOp.enqueue, QOp.audio 1 7 24000, QOp.streamEnd 1,
        QOp.senderIdle, QOp.senderIdle], QOp.isBenign op = true) ∧
    ∃ p c, c ≤ p ∧
      (qRun QState.qInit [QOp.enqueue, QOp.enqueue, QOp.audio 1 7 24000,
        QOp.streamEnd 1, QOp.senderIdle, QOp.senderIdle]).promoted = List.range p ∧
      (qRun QState.qInit [QOp.enqueue, QOp.enqueue, QOp.audio 1 7 24000,
        QOp.streamEnd 1, QOp.senderIdle, QOp.senderIdle]).completed = List.range c :=
  ⟨by decide, playback_fifo _ (by decide)⟩

/-! ## Gemini Live session rotation (src/providers/s2s/gemini-live.ts)

`GeminiLiveSession` is modelled by its rotation-relevant state: the
sockets created so far (socket `i` is the i-th `new WebSocket`; the
current one is the last), the `isRotating` flag, the log of setup frames
sent (socket id and the `systemInstruction` string they carry), the set
of sockets on which `close()` has been called whose asynchronous `close`
event has not yet been delivered, and the `error` events emitted.

`options` (`instructions`, `conversationHistory`) are fixed at session
creation and re-read by every `sendSetup`, including the one issued
during rotation.  Node's `ws` delivers the `close` event of a closed
socket asynchronously: strictly after the synchronous remainder of
`rotateSession` (`oldWs.close(); this.isRotating = false`) has run. -/

/-- The error message of the close handler (line 65). -/
def geminiCloseError : String := "Gemini Live connection closed unexpectedly"

/-- `scheduleRotation` delay (lines 221-224): `max(sessionDurationMs −
GEMINI_SESSION_ROTATION_BUFFER_MS, 0)`. -/
def rotateAfterMs (sessionDurationMs : Int) : Int :=
  max (sessionDurationMs - GEMINI_SESSION_ROTATION_BUFFER_MS) 0

/-- `buildSystemInstruction` (lines 253-263). -/
def buildSystemInstruction (instructions : Option String)
    (conversationHistory : List ConversationTurn) : String :=
  let base := instructions.getD "You are a helpful voice assistant."
  if conversationHistory.length = 0 then base
  else
    let history := String.intercalate "\n"
      ((conversationHistory.drop (conversationHistory.length - 10)).map
        (fun t => (if t.role = Role.user then "User" else "Assistant") ++ ": " ++ t.content))
    base ++ "\n\nRecent conversation:\n" ++ history

structure GeminiSession where
  instructions : Option String
  conversationHistory : List ConversationTurn
  wsCount : Nat
  isRotating : Bool
  setupsSent : List (Nat × String)
  pendingClose : List Nat
  errors : List String
  deriving DecidableEq, Repr

namespace GeminiSession

/-- A freshly constructed session (constructor, lines 43-47): no socket yet. -/
def mk0 (instructions : Option String) (history : List ConversationTurn) : GeminiSession :=
  { instructions := instructions, conversationHistory := history, wsCount := 0,
    isRotating := false, setupsSent := [], pendingClose := [], errors := [] }

/-- `connect` succeeding (lines 49-69): a new WebSocket opens and `sendSetup`
is sent on it (with the session-fixed options). -/
def connectOpen (s : GeminiSession) : GeminiSession :=
  { s with
    wsCount := s.wsCount + 1,
    setupsSent := s.setupsSent ++
      [(s.wsCount, buildSystemInstruction s.instructions s.conversationHistory)] }

/-- `rotateSession` succeeding (lines 233-251): set `isRotating`, open the
new socket (setup sent on it), call `close()` on the old socket, then clear
`isRotating` — all before the old socket's `close` event can be delivered. -/
def rotateSessionSuccess (s : GeminiSession) : GeminiSession :=
  let oldWs := s.wsCount - 1
  let s1 : GeminiSession := { s with isRotating := true }
  let s2 := s1.connectOpen
  let s3 : GeminiSession := { s2 with pendingClose := s2.pendingClose ++ [oldWs] }
  { s3 with isRotating := false }

/-- Delivery of a pending `close` event (handler at lines 63-67): emit an
`error` unless `isRotating` is (still) set. -/
def closeDelivered (s : GeminiSession) (w : Nat) : GeminiSession :=
  if w ∈ s.pendingClose then
    let s1 : GeminiSession := { s with pendingClose := s.pendingClose.filter (fun x => ¬ x = w) }
    if s1.isRotating then s1 else { s1 with errors := s1.errors ++ [geminiCloseError] }
  else s

end GeminiSession

/-- C4 (code bug): a complete rotation at the default `sessionDurationMs`.
The setup frame on the new socket does carry a system instruction holding
exactly the last 10 conversation turns — but when the old socket's `close`
event is delivered (necessarily after `rotateSession` has already cleared
`isRotating`), the close handler emits the "closed unexpectedly" `error`,
contradicting the claim that no error is emitted for the old socket's
close. -/
theorem gemini_rotation_close_error :
    rotateAfterMs 540000 = 480000 ∧
    (let hist : List ConversationTurn :=
      (List.range 12).map (fun i =>
        { role := if i % 2 = 0 then Role.user else Role.assistant,
          content := toString i, timestamp := 0 })
    let s0 := (GeminiSession.mk0 (some "sys") hist).connectOpen
    let s1 := s0.rotateSessionSuccess
    s1.setupsSent = [(0, buildSystemInstruction (some "sys") hist),
                     (1, buildSystemInstruction (some "sys") hist)] ∧
    buildSystemInstruction (some "sys") hist =
      "sys\n\nRecent conversation:\n" ++
        "User: 2\nAssistant: 3\nUser: 4\nAssistant: 5\nUser: 6\nAssistant: 7\n" ++
        "User: 8\nAssistant: 9\nUser: 10\nAssistant: 11" ∧
    s1.errors = [] ∧
    (s1.closeDelivered 0).errors = [geminiCloseError]) := by
  refine ⟨by decide, ?_, by decide, by decide, by decide⟩
  decide

/-! ## Sentence splitter (pipeline engine, `SentenceSplitter` +
`SENTENCE_BOUNDARY_RE` in src/constants.ts)

`SENTENCE_BOUNDARY_RE = /([.!?])\s+/` has no `g` flag, so every `exec`
scans the buffer from the start; a match is the first position holding a
terminator directly followed by whitespace, and the greedy `\s+` consumes
the maximal whitespace run there.  `feed` appends the token and loops:
each match emits `buffer.slice(0, index+1).trim()` and advances the
buffer past the matched whitespace; `flush` returns the trimmed residual
(or nothing when empty).  Strings are embedded as `List Char`;
`String.prototype.trim` strips the same whitespace class as `\s`. -/

/-- JavaScript's `\s` class (ECMAScript WhiteSpace ∪ LineTerminator). -/
def isJsWhitespace (c : Char) : Bool :=
  c == ' ' || c == '\t' || c == '\n' || c == '\x0b' || c == '\x0c' || c == '\r' ||
  c == ' ' || c == ' ' || c == ' ' || c == ' ' || c == ' ' ||
  c == ' ' || c == ' ' || c == ' ' || c == ' ' || c == ' ' ||
  c == ' ' || c == ' ' || c == ' ' || c == ' ' || c == ' ' ||
  c == ' ' || c == ' ' || c == '　' || c == '﻿'

/-- The capture class `([.!?])`. -/
def isTerminator (c : Char) : Bool :=
  c == '.' || c == '!' || c == '?'

/-- Whitespace characters are never sentence terminators. -/
theorem ws_not_term {c : Char} (h : isJsWhitespace c = true) : isTerminator c = false := by
  by_contra hterm
  rw [Bool.not_eq_false] at hterm
  simp only [isTerminator, Bool.or_eq_true, beq_iff_eq] at hterm
  rcases hterm with (rfl | rfl) | rfl <;> exact absurd h (by decide)

/-- `dropWhile isJsWhitespace`: what `trim` removes on the left and what
the matched `\s+` leaves behind. -/
def ldropWs (l : List Char) : List Char := l.dropWhile isJsWhitespace

/-- `String.prototype.trim`. -/
def trimWs (l : List Char) : List Char :=
  ((ldropWs l).reverse.dropWhile isJsWhitespace).reverse

/-- Index of the first regex match: the least `i` with a terminator at `i`
directly followed by a whitespace character. -/
def findBoundary : List Char → Option Nat
  | c1 :: c2 :: rest =>
      if isTerminator c1 && isJsWhitespace c2 then some 0
      else (findBoundary (c2 :: rest)).map (· + 1)
  | _ => none

/-- One `exec`-loop pass of `feed`, with fuel for structural recursion
(each extraction consumes at least two characters, so `b.length` fuel
always suffices). -/
def drainGo : Nat → List Char → List Char × List (List Char)
  | 0, b => (b, [])
  | fuel + 1, b =>
      match findBoundary b with
      | none => (b, [])
      | some i =>
          ((drainGo fuel (ldropWs (b.drop (i + 1)))).1,
           trimWs (b.take (i + 1)) :: (drainGo fuel (ldropWs (b.drop (i + 1)))).2)

/-- The `while ((match = SENTENCE_BOUNDARY_RE.exec(this.buffer)) !== null)`
loop of `feed`, applied to a buffer: repeatedly emit the trimmed prefix up
to the terminator and advance past the boundary whitespace. -/
def drain (b : List Char) : List Char × List (List Char) :=
  drainGo b.length b

/-- `feed` (buffer, token) = drain (buffer ++ token). -/
def feed (b token : List Char) : List Char × List (List Char) :=
  drain (b ++ token)

/-- Feed a token sequence from a given buffer, collecting emissions. -/
def feedAll : List Char → List (List Char) → List Char × List (List Char)
  | b, [] => (b, [])
  | b, t :: ts =>
      let o1 := feed b t
      let o2 := feedAll o1.1 ts
      (o2.1, o1.2 ++ o2.2)

/-- `flush`: the trimmed residual, or nothing when it trims to empty. -/
def flushOut (b : List Char) : List (List Char) :=
  if trimWs b = [] then [] else [trimWs b]

/-- Sentences produced by feeding the tokens then flushing. -/
def sentencesOf (tokens : List (List Char)) : List (List Char) :=
  (feedAll [] tokens).2 ++ flushOut (feedAll [] tokens).1

theorem findBoundary_some_lt {b : List Char} {i : Nat}
    (h : findBoundary b = some i) : i + 1 < b.length := by
  induction b generalizing i with
  | nil => simp [findBoundary] at h
  | cons c1 t ih =>
      cases t with
      | nil => simp [findBoundary] at h
      | cons c2 rest =>
          rw [findBoundary] at h
          by_cases hb : isTerminator c1 && isJsWhitespace c2
          · rw [if_pos hb] at h
            injection h with h
            subst h
            simp
          · rw [if_neg hb] at h
            simp only [Option.map_eq_some'] at h
            obtain ⟨j, hj, rfl⟩ := h
            have := ih hj
            simp only [List.length_cons] at this ⊢
            omega

theorem findBoundary_ws_after {b : List Char} {i : Nat}
    (h : findBoundary b = some i) :
    ∃ c t', b.drop (i + 1) = c :: t' ∧ isJsWhitespace c = true := by
  induction b generalizing i with
  | nil => simp [findBoundary] at h
  | cons c1 t ih =>
      cases t with
      | nil => simp [findBoundary] at h
      | cons c2 rest =>
          rw [findBoundary] at h
          by_cases hb : isTerminator c1 && isJsWhitespace c2
          · rw [if_pos hb] at h
            injection h with h
            subst h
            simp only [Bool.and_eq_true] at hb
            exact ⟨c2, rest, rfl, hb.2⟩
          · rw [if_neg hb] at h
            simp only [Option.map_eq_some'] at h
            obtain ⟨j, hj, rfl⟩ := h
            obtain ⟨c, t', ht', hc⟩ := ih hj
            exact ⟨c, t', by simpa using ht', hc⟩

/-- After an extraction the buffer shrinks by at least two characters. -/
theorem drain_rest_length {b : List Char} {i : Nat}
    (h : findBoundary b = some i) :
    (ldropWs (b.drop (i + 1))).length + 2 ≤ b.length := by
  obtain ⟨c, t', ht', hc⟩ := findBoundary_ws_after h
  have hlt := findBoundary_some_lt h
  have hdl : (b.drop (i + 1)).length = b.length - (i + 1) := by simp
  have h2 : (ldropWs (b.drop (i + 1))).length + 1 ≤ (b.drop (i + 1)).length := by
    rw [ht', ldropWs, List.dropWhile_cons, if_pos (by simp [hc])]
    have hsub : (t'.dropWhile isJsWhitespace).length ≤ t'.length :=
      (List.dropWhile_sublist isJsWhitespace).length_le
    simp only [List.length_cons]
    omega
  omega

theorem drainGo_fuel {b : List Char} :
    ∀ {fuel1 fuel2 : Nat}, b.length ≤ fuel1 → b.length ≤ fuel2 →
    drainGo fuel1 b = drainGo fuel2 b := by
  have key : ∀ (n : Nat) (b : List Char) (fuel1 fuel2 : Nat), b.length ≤ n →
      b.length ≤ fuel1 → b.length ≤ fuel2 → drainGo fuel1 b = drainGo fuel2 b := by
    intro n
    induction n with
    | zero =>
        intro b fuel1 fuel2 hn h1 h2
        have hb : b = [] := List.length_eq_zero.mp (Nat.le_zero.mp hn)
        subst hb
        cases fuel1 <;> cases fuel2 <;> simp [drainGo, findBoundary]
    | succ n ih =>
        intro b fuel1 fuel2 hn h1 h2
        cases fuel1 with
        | zero =>
            have hb : b = [] := List.length_eq_zero.mp (Nat.le_zero.mp h1)
            subst hb
            cases fuel2 <;> simp [drainGo, findBoundary]
        | succ f1 =>
            cases fuel2 with
            | zero =>
                have hb : b = [] := List.length_eq_zero.mp (Nat.le_zero.mp h2)
                subst hb
                simp [drainGo, findBoundary]
            | succ f2 =>
                rcases hfb : findBoundary b with _ | i
                · rw [drainGo, drainGo]
                  simp only [hfb]
                · have hrest := drain_rest_length hfb
                  have heq := ih (ldropWs (b.drop (i + 1))) f1 f2
                    (by omega) (by omega) (by omega)
                  rw [drainGo, drainGo]
                  simp only [hfb, heq]
  intro fuel1 fuel2 h1 h2
  exact key b.length b fuel1 fuel2 (le_refl _) h1 h2

/-- The defining unfolding of `drain`, fuel-free. -/
theorem drain_eq (b : List Char) :
    drain b = match findBoundary b with
      | none => (b, [])
      | some i =>
          ((drain (ldropWs (b.drop (i + 1)))).1,
           trimWs (b.take (i + 1)) :: (drain (ldropWs (b.drop (i + 1)))).2) := by
  rcases hfb : findBoundary b with _ | i
  · rcases hl : b.length with _ | n
    · have hb : b = [] := List.length_eq_zero.mp hl
      subst hb
      simp [drain, drainGo]
    · simp only [drain, hl, drainGo, hfb]
  · have hlt := findBoundary_some_lt hfb
    rcases hl : b.length with _ | n
    · omega
    · have hrest := drain_rest_length hfb
      have hfuel : drainGo (ldropWs (b.drop (i + 1))).length (ldropWs (b.drop (i + 1))) =
          drainGo n (ldropWs (b.drop (i + 1))) :=
        drainGo_fuel (le_refl _) (by omega)
      simp only [drain, hl, drainGo, hfb, hfuel]

theorem drain_drained {b : List Char} (h : findBoundary b = none) :
    drain b = (b, []) := by
  rw [drain_eq, h]

theorem drain_eq_some {b : List Char} {i : Nat} (h : findBoundary b = some i) :
    drain b = ((drain (ldropWs (b.drop (i + 1)))).1,
               trimWs (b.take (i + 1)) :: (drain (ldropWs (b.drop (i + 1)))).2) := by
  rw [drain_eq, h]

/-- The buffer left by a full drain has no boundary left. -/
theorem findBoundary_drain (b : List Char) : findBoundary (drain b).1 = none := by
  have key : ∀ (n : Nat) (b : List Char), b.length ≤ n → findBoundary (drain b).1 = none := by
    intro n
    induction n with
    | zero =>
        intro b hn
        have hb : b = [] := List.length_eq_zero.mp (Nat.le_zero.mp hn)
        subst hb
        simp [drain, drainGo, findBoundary]
    | succ n ih =>
        intro b hn
        rw [drain_eq]
        rcases hfb : findBoundary b with _ | i
        · exact hfb
        · have hrest := drain_rest_length hfb
          exact ih _ (by omega)
  exact key b.length b (le_refl _)

theorem ldropWs_ws_cons {c : Char} (hc : isJsWhitespace c = true) (l : List Char) :
    ldropWs (c :: l) = ldropWs l := by
  simp [ldropWs, List.dropWhile_cons, hc]

theorem trimWs_ws_cons {c : Char} (hc : isJsWhitespace c = true) (l : List Char) :
    trimWs (c :: l) = trimWs l := by
  simp [trimWs, ldropWs_ws_cons hc]

theorem ldropWs_idem (l : List Char) : ldropWs (ldropWs l) = ldropWs l :=
  List.dropWhile_idempotent _ _

theorem trimWs_congr {b1 b2 : List Char} (h : ldropWs b1 = ldropWs b2) :
    trimWs b1 = trimWs b2 := by
  simp only [trimWs, h]

theorem findBoundary_ws_cons {c : Char} (hc : isJsWhitespace c = true) (l : List Char) :
    findBoundary (c :: l) = (findBoundary l).map (· + 1) := by
  cases l with
  | nil => simp [findBoundary]
  | cons c2 rest =>
      rw [findBoundary, if_neg (by simp [ws_not_term hc])]

theorem findBoundary_append_some {s : List Char} {i : Nat} (u : List Char)
    (h : findBoundary s = some i) : findBoundary (s ++ u) = some i := by
  induction s generalizing i with
  | nil => simp [findBoundary] at h
  | cons c1 t ih =>
      cases t with
      | nil => simp [findBoundary] at h
      | cons c2 rest =>
          rw [findBoundary] at h
          by_cases hb : isTerminator c1 && isJsWhitespace c2
          · rw [if_pos hb] at h
            injection h with h
            subst h
            rw [List.cons_append, List.cons_append, findBoundary, if_pos hb]
          · rw [if_neg hb] at h
            simp only [Option.map_eq_some'] at h
            obtain ⟨j, hj, rfl⟩ := h
            rw [List.cons_append, List.cons_append, findBoundary, if_neg hb]
            have := ih hj
            rw [List.cons_append] at this
            rw [this]
            rfl

/-- Dropping a leading whitespace character neither changes the emitted
sentences nor the residual buffer up to leading whitespace. -/
theorem drain_ws_cons {c : Char} (hc : isJsWhitespace c = true) (l : List Char) :
    (drain (c :: l)).2 = (drain l).2 ∧
    ldropWs (drain (c :: l)).1 = ldropWs (drain l).1 := by
  rcases hfb : findBoundary l with _ | i
  · have hfb2 : findBoundary (c :: l) = none := by
      rw [findBoundary_ws_cons hc, hfb]
      rfl
    rw [drain_drained hfb, drain_drained hfb2]
    exact ⟨rfl, ldropWs_ws_cons hc l⟩
  · have hfb2 : findBoundary (c :: l) = some (i + 1) := by
      rw [findBoundary_ws_cons hc, hfb]
      rfl
    have e1 := drain_eq_some hfb2
    have e2 := drain_eq_some hfb
    simp only [List.drop_succ_cons, List.take_succ_cons] at e1
    rw [e1, e2]
    exact ⟨by rw [trimWs_ws_cons hc], rfl⟩

/-- Stripping the whole leading-whitespace run of the buffer changes
neither the emissions nor the residual up to leading whitespace. -/
theorem drain_ldrop (b : List Char) :
    (drain (ldropWs b)).2 = (drain b).2 ∧
    ldropWs (drain (ldropWs b)).1 = ldropWs (drain b).1 := by
  induction b with
  | nil => exact ⟨rfl, rfl⟩
  | cons c l ih =>
      by_cases hc : isJsWhitespace c
      · rw [ldropWs_ws_cons hc]
        obtain ⟨h1, h2⟩ := drain_ws_cons hc l
        exact ⟨ih.1.trans h1.symm, ih.2.trans h2.symm⟩
      · have : ldropWs (c :: l) = c :: l := by
          simp [ldropWs, List.dropWhile_cons, hc]
        rw [this]
        exact ⟨rfl, rfl⟩

/-- Draining `s ++ u` is draining `s`, then draining the drained residual
with `u` appended: emissions concatenate and the final buffers agree up to
leading whitespace. -/
theorem drain_append (u : List Char) (s : List Char) :
    (drain (s ++ u)).2 = (drain s).2 ++ (drain ((drain s).1 ++ u)).2 ∧
    ldropWs (drain (s ++ u)).1 = ldropWs (drain ((drain s).1 ++ u)).1 := by
  have key : ∀ (n : Nat) (s : List Char), s.length ≤ n →
      (drain (s ++ u)).2 = (drain s).2 ++ (drain ((drain s).1 ++ u)).2 ∧
      ldropWs (drain (s ++ u)).1 = ldropWs (drain ((drain s).1 ++ u)).1 := by
    intro n
    induction n with
    | zero =>
        intro s hn
        have hs : s = [] := List.length_eq_zero.mp (Nat.le_zero.mp hn)
        subst hs
        rw [drain_drained (by rfl : findBoundary ([] : List Char) = none)]
        simp
    | succ n ih =>
        intro s hn
        rcases hfb : findBoundary s with _ | i
        · rw [drain_drained hfb]
          simp
        · have hlt := findBoundary_some_lt hfb
          have hrest := drain_rest_length hfb
          have hA := findBoundary_append_some u hfb
          have htake : (s ++ u).take (i + 1) = s.take (i + 1) :=
            List.take_append_of_le_length (by omega)
          have hdrop : (s ++ u).drop (i + 1) = s.drop (i + 1) ++ u :=
            List.drop_append_of_le_length (by omega)
          have e1 := drain_eq_some hA
          rw [htake, hdrop] at e1
          have e2 := drain_eq_some hfb
          rw [e1, e2]
          simp only
          rw [ldropWs, List.dropWhile_append]
          by_cases hemp : ((s.drop (i + 1)).dropWhile isJsWhitespace).isEmpty
          · rw [if_pos hemp]
            have hrs : ldropWs (s.drop (i + 1)) = [] := by
              rwa [List.isEmpty_iff] at hemp
            rw [hrs]
            rw [drain_drained (by rfl : findBoundary ([] : List Char) = none)]
            simp only [List.nil_append]
            obtain ⟨hd1, hd2⟩ := drain_ldrop u
            rw [show (u.dropWhile isJsWhitespace) = ldropWs u from rfl, hd1, hd2]
            simp
          · rw [if_neg hemp]
            obtain ⟨ih1, ih2⟩ := ih (ldropWs (s.drop (i + 1))) (by omega)
            rw [show ((s.drop (i + 1)).dropWhile isJsWhitespace) =
              ldropWs (s.drop (i + 1)) from rfl]
            rw [ih1, ih2]
            simp
  exact key s.length s (le_refl _)

/-- Incremental feeding from a drained buffer produces the same emissions
as draining the buffer with all remaining input appended at once, with
residuals agreeing up to leading whitespace. -/
theorem feedAll_drain (ts : List (List Char)) :
    ∀ b : List Char, findBoundary b = none →
    (feedAll b ts).2 = (drain (b ++ ts.flatten)).2 ∧
    ldropWs (feedAll b ts).1 = ldropWs (drain (b ++ ts.flatten)).1 := by
  induction ts with
  | nil =>
      intro b hb
      rw [List.flatten_nil, List.append_nil, drain_drained hb]
      exact ⟨rfl, rfl⟩
  | cons t ts ih =>
      intro b hb
      have hd1 : findBoundary (drain (b ++ t)).1 = none := findBoundary_drain (b ++ t)
      obtain ⟨ih1, ih2⟩ := ih (drain (b ++ t)).1 hd1
      obtain ⟨ha1, ha2⟩ := drain_append ts.flatten (b ++ t)
      constructor
      · show (drain (b ++ t)).2 ++ (feedAll (drain (b ++ t)).1 ts).2 = _
        rw [List.flatten_cons, ← List.append_assoc, ha1, ih1]
      · show ldropWs (feedAll (drain (b ++ t)).1 ts).1 = _
        rw [List.flatten_cons, ← List.append_assoc, ha2, ih2]

/-- C6: tokenization invariance of the sentence splitter.  Feeding any
tokenization of a string and flushing yields the same sentences as feeding
the whole string at once; in particular every tokenization of
"Hi there. How are you?" yields exactly ["Hi there.", "How are you?"]. -/
theorem sentenceSplitter_spec (ts : List (List Char)) :
    sentencesOf ts = sentencesOf [ts.flatten] ∧
    (ts.flatten = "Hi there. How are you?".toList →
      sentencesOf ts = ["Hi there.".toList, "How are you?".toList]) := by
  have hmain : sentencesOf ts = sentencesOf [ts.flatten] := by
    obtain ⟨h1, h2⟩ := feedAll_drain ts [] (by rfl)
    obtain ⟨h3, h4⟩ := feedAll_drain [ts.flatten] [] (by rfl)
    rw [List.nil_append] at h1 h2
    rw [List.flatten_cons, List.flatten_nil, List.append_nil, List.nil_append] at h3 h4
    unfold sentencesOf
    rw [h1, h3, flushOut, flushOut, trimWs_congr (h2.trans h4.symm)]
  refine ⟨hmain, ?_⟩
  intro hflat
  rw [hmain, hflat]
  decide

/-- Witness for `sentenceSplitter_spec`: a three-token tokenization of the
test string yields exactly the two sentences. -/
theorem sentenceSplitter_spec_witness :
    ["Hi the".toList, "re. How ".toList, "are you?".toList].flatten =
        "Hi there. How are you?".toList ∧
    sentencesOf ["Hi the".toList, "re. How ".toList, "are you?".toList] =
      ["Hi there.".toList, "How are you?".toList] :=
  ⟨by decide,
   (sentenceSplitter_spec ["Hi the".toList, "re. How ".toList, "are you?".toList]).2
     (by decide)⟩

end VoiceGateway
